import Mathlib

/-!
Verification of the point-cloud spatial engine of the ProjetLidar repository.

The definitions below are a shallow embedding of the processing code in
`backend/app/routers/lidar_advanced.py`, `backend/app/routers/lidar.py`,
`backend/app/routers/simulation_advanced.py` and `backend/lidar - Copie.py`.
Python floats are modelled as exact rationals, numpy NaN sentinels as
`Option` values, and the hidden global `np.random` state as an explicit
stream of naturals.  Recursive procedures whose Python originals can
diverge (octree insertion) are embedded with an explicit fuel argument and
return `none` when the fuel runs out.
-/

namespace ProjetLidar

/-! ## Octree (class OctreeNode, lidar_advanced.py lines 41-157)

A point is an `(x, y, z)` triple.  The attributes dictionary attached to a
point (`{'index': i, ...}`) never influences control flow or counts; it is
modelled by the integer index that `build_octree` always stores in it. -/

/-- A 3D point, mirroring the `(x, y, z)` tuples of the Python code. -/
abbrev Pt : Type := ℚ × ℚ × ℚ

/-- Node bounds `(min_x, max_x, min_y, max_y, min_z, max_z)`. -/
structure Bounds where
  min_x : ℚ
  max_x : ℚ
  min_y : ℚ
  max_y : ℚ
  min_z : ℚ
  max_z : ℚ
deriving DecidableEq, Repr

/-- Octree node.  `children = []` models the Python state where
`children[0] is None` (the eight slots are filled all at once by
`subdivide`, so the slot list is either all-`None` or all set). -/
structure OctreeNode where
  bounds : Bounds
  level : ℕ
  points : List (Pt × ℕ)
  children : List OctreeNode
  point_count : ℕ
  max_points_per_node : ℕ

instance : Inhabited OctreeNode :=
  ⟨⟨⟨0, 0, 0, 0, 0, 0⟩, 0, [], [], 0, 50000⟩⟩

/-- Constructor `OctreeNode.__init__(bounds, level)`. -/
def mkNode (b : Bounds) (level : ℕ) : OctreeNode :=
  { bounds := b, level := level, points := [], children := [],
    point_count := 0, max_points_per_node := 50000 }

/-- Method `get_octant`: octant index of a point with respect to the node
midpoint; ties (equality) go to the upper side. -/
def getOctant (b : Bounds) (p : Pt) : ℕ :=
  let midx := (b.min_x + b.max_x) / 2
  let midy := (b.min_y + b.max_y) / 2
  let midz := (b.min_z + b.max_z) / 2
  (if midx ≤ p.1 then 1 else 0) +
    (if midy ≤ p.2.1 then 2 else 0) +
    (if midz ≤ p.2.2 then 4 else 0)

/-- The eight child boxes created by `subdivide`, in source order 0..7. -/
def childBoxes (b : Bounds) : List Bounds :=
  let mx := (b.min_x + b.max_x) / 2
  let my := (b.min_y + b.max_y) / 2
  let mz := (b.min_z + b.max_z) / 2
  [⟨b.min_x, mx, b.min_y, my, b.min_z, mz⟩,
   ⟨mx, b.max_x, b.min_y, my, b.min_z, mz⟩,
   ⟨b.min_x, mx, my, b.max_y, b.min_z, mz⟩,
   ⟨mx, b.max_x, my, b.max_y, b.min_z, mz⟩,
   ⟨b.min_x, mx, b.min_y, my, mz, b.max_z⟩,
   ⟨mx, b.max_x, b.min_y, my, mz, b.max_z⟩,
   ⟨b.min_x, mx, my, b.max_y, mz, b.max_z⟩,
   ⟨mx, b.max_x, my, b.max_y, mz, b.max_z⟩]

/-- Method `subdivide`: fill the eight child slots with fresh nodes one
level deeper (each fresh node gets the constructor capacity 50000). -/
def subdivide (n : OctreeNode) : OctreeNode :=
  { n with children := (childBoxes n.bounds).map fun bb => mkNode bb (n.level + 1) }

/-- The redistribution loop of `insert`:
`for p, attr in self.points: self.children[self.get_octant(p)].insert(p, attr)`.
The recursive insertion call is passed in as `ins` (it is the insertion at
the remaining fuel). -/
def redistributeGo (ins : OctreeNode → Pt → ℕ → Option OctreeNode) (b : Bounds) :
    List OctreeNode → List (Pt × ℕ) → Option (List OctreeNode)
  | cs, [] => some cs
  | cs, pa :: rest =>
    let oct := getOctant b pa.1
    match ins (cs.getD oct default) pa.1 pa.2 with
    | none => none
    | some c => redistributeGo ins b (cs.set oct c) rest

/-- One unfolding of method `insert`; `ins` is the insertion one fuel
level down.  The Python method
1. increments `point_count`,
2. if the node is an undivided leaf whose buffer has reached
   `max_points_per_node`, subdivides, reinserts every buffered point into
   the child of its octant and clears the buffer (note: no depth check),
3. then stores the new point in the octant child if subdivided, else
   appends it to the buffer. -/
def insertGo (ins : OctreeNode → Pt → ℕ → Option OctreeNode)
    (n0 : OctreeNode) (p : Pt) (a : ℕ) : Option OctreeNode :=
  let n := { n0 with point_count := n0.point_count + 1 }
  let step : Option OctreeNode :=
    if n.children.isEmpty ∧ n.max_points_per_node ≤ n.points.length then
      let s := subdivide n
      match redistributeGo ins s.bounds s.children s.points with
      | none => none
      | some cs => some { s with children := cs, points := [] }
    else some n
  match step with
  | none => none
  | some m =>
    if m.children.isEmpty then
      some { m with points := m.points ++ [(p, a)] }
    else
      let oct := getOctant m.bounds p
      match ins (m.children.getD oct default) p a with
      | none => none
      | some c => some { m with children := m.children.set oct c }

/-- Method `insert`, embedded with fuel (structural recursion on the
fuel).  `none` means the fuel ran out: the Python recursion did not
return within that call depth. -/
def insertF : ℕ → OctreeNode → Pt → ℕ → Option OctreeNode
  | 0 => fun _ _ _ => none
  | fuel + 1 => insertGo (insertF fuel)

/-- Insert a list of indexed points in order (the loop of `build_octree`). -/
def insertListF (fuel : ℕ) (n : OctreeNode) : List (Pt × ℕ) → Option OctreeNode
  | [] => some n
  | pa :: rest =>
    match insertF fuel n pa.1 pa.2 with
    | none => none
    | some n' => insertListF fuel n' rest

/-- Indexed view of a point list: `enumerate` of `build_octree`. -/
def indexPts (pts : List Pt) : List (Pt × ℕ) :=
  (pts.enum).map fun ia => (ia.2, ia.1)

/-- Minimum of the `x` coordinates (`points.min(axis=0)` component). -/
def minX (pts : List Pt) : ℚ :=
  match pts with
  | [] => 0
  | p :: rest => rest.foldl (fun m q => min m q.1) p.1

/-- Maximum of the `x` coordinates. -/
def maxX (pts : List Pt) : ℚ :=
  match pts with
  | [] => 0
  | p :: rest => rest.foldl (fun m q => max m q.1) p.1

/-- Minimum of the `y` coordinates. -/
def minY (pts : List Pt) : ℚ :=
  match pts with
  | [] => 0
  | p :: rest => rest.foldl (fun m q => min m q.2.1) p.2.1

/-- Maximum of the `y` coordinates. -/
def maxY (pts : List Pt) : ℚ :=
  match pts with
  | [] => 0
  | p :: rest => rest.foldl (fun m q => max m q.2.1) p.2.1

/-- Minimum of the `z` coordinates. -/
def minZ (pts : List Pt) : ℚ :=
  match pts with
  | [] => 0
  | p :: rest => rest.foldl (fun m q => min m q.2.2) p.2.2

/-- Maximum of the `z` coordinates. -/
def maxZ (pts : List Pt) : ℚ :=
  match pts with
  | [] => 0
  | p :: rest => rest.foldl (fun m q => max m q.2.2) p.2.2

/-- Method `build_octree`: root box is the bounding box of the point set
(the `max_level` parameter of the Python method is accepted but never
used by it, so it does not appear here), then every point is inserted. -/
def buildOctreeF (fuel : ℕ) (pts : List Pt) : Option OctreeNode :=
  let root := mkNode ⟨minX pts, maxX pts, minY pts, maxY pts, minZ pts, maxZ pts⟩ 0
  insertListF fuel root (indexPts pts)

/-! ## Spatial tiles (LidarProcessor.generate_tiles, lidar_advanced.py lines 159-187) -/

/-- Python `int()` applied to a rational: truncation toward zero. -/
def ratTrunc (q : ℚ) : ℤ :=
  if 0 ≤ q then ⌊q⌋ else ⌈q⌉

/-- The values taken by the loop variable of
`x = mn; while x < mx: ...; x += t` for a positive step `t`: these are
`mn + k * t` for every natural `k` with `mn + k * t < mx`, and there are
exactly `⌈(mx - mn) / t⌉` of them. -/
def tileStarts (mn mx t : ℚ) : List ℚ :=
  (List.range (⌈(mx - mn) / t⌉).toNat).map fun k : ℕ => mn + (k : ℚ) * t

/-- One generated tile: `bounds = (x, x+size, y, y+size)`, the points of
the tile, their count, and the cell center. -/
structure Tile where
  bounds : ℚ × ℚ × ℚ × ℚ
  point_count : ℕ
  points : List Pt
  center : ℚ × ℚ
deriving DecidableEq

/-- The half-open membership mask of `generate_tiles`:
`x <= px < x + size` and `y <= py < y + size`. -/
def inTile (x y size : ℚ) (p : Pt) : Bool :=
  decide (x ≤ p.1) && decide (p.1 < x + size) &&
    decide (y ≤ p.2.1) && decide (p.2.1 < y + size)

/-- Method `generate_tiles`: scan the bounding box of the points in
tile-size steps (outer loop on x, inner on y), keep cells that contain at
least one point. -/
def generateTiles (pts : List Pt) (tile_size : ℚ) : List Tile :=
  let mnx := minX pts
  let mxx := maxX pts
  let mny := minY pts
  let mxy := maxY pts
  (tileStarts mnx mxx tile_size).flatMap fun x =>
    (tileStarts mny mxy tile_size).filterMap fun y =>
      let tp := pts.filter (inTile x y tile_size)
      if 0 < tp.length then
        some { bounds := (x, x + tile_size, y, y + tile_size),
               point_count := tp.length, points := tp,
               center := ((x + x + tile_size) / 2, (y + y + tile_size) / 2) }
      else none

/-! ## Gap filling (LidarProcessor._fill_nan_grid, lidar_advanced.py lines 296-311)

Grids are lists of rows of `Option` rationals; `none` is the NaN
sentinel.  `scipy.ndimage.generic_filter(grid, fill_nan, size=3,
mode='constant', cval=np.nan)` applies `fill_nan` to the 3x3 window of
EVERY cell (out-of-grid window positions contribute the constant NaN),
where `fill_nan` returns the mean of the non-NaN window values, or NaN
when there are none. -/

/-- Grid cell access with NaN for out-of-range positions (the constant
padding of the filter). -/
def cellGet (g : List (List (Option ℚ))) (r c : ℤ) : Option ℚ :=
  if 0 ≤ r ∧ 0 ≤ c then (g.getD r.toNat []).getD c.toNat none else none

/-- The 3x3 window of a cell, row-major. -/
def window3 (g : List (List (Option ℚ))) (j i : ℕ) : List (Option ℚ) :=
  ([-1, 0, 1] : List ℤ).flatMap fun dj =>
    ([-1, 0, 1] : List ℤ).map fun di => cellGet g ((j : ℤ) + dj) ((i : ℤ) + di)

/-- The `fill_nan` kernel: mean of the valid (non-NaN) values, NaN if
there are none. -/
def meanValid (vs : List (Option ℚ)) : Option ℚ :=
  let valid := vs.filterMap id
  if valid.length = 0 then none else some (valid.sum / (valid.length : ℚ))

/-- Method `_fill_nan_grid`: apply the 3x3 mean filter to every cell,
then set the cells that are still NaN to the global mean of the filtered
grid (`np.nanmean`); if every cell is NaN the global mean is itself NaN
and the grid is unchanged by the second step. -/
def fillNanGrid (g : List (List (Option ℚ))) : List (List (Option ℚ)) :=
  let filled := (List.range g.length).map fun j =>
    (List.range (g.getD j []).length).map fun i => meanValid (window3 g j i)
  let resolved := (filled.flatMap id).filterMap id
  let gm : Option ℚ :=
    if resolved.length = 0 then none else some (resolved.sum / (resolved.length : ℚ))
  filled.map fun row => row.map fun v =>
    match v with
    | some x => some x
    | none => gm

/-! ## DTM / DSM rasters (lidar_advanced.py lines 201-294) -/

/-- The state of a `LidarProcessor`: the loaded points and the optional
per-point classification column (aligned by index). -/
structure Proc where
  points : List Pt
  classification : Option (List ℕ)

/-- Method `_extract_ground_simple`: scan the bounding box in unit cells
(the same loop pattern as `generate_tiles` with `cell_size`), and keep
the lowest point of each non-empty cell (`argmin` keeps the first of
several minima, as does a fold that replaces only on strictly smaller
`z`). -/
def extractGroundSimple (pts : List Pt) (cell_size : ℚ) : List Pt :=
  let mnx := minX pts
  let mxx := maxX pts
  let mny := minY pts
  let mxy := maxY pts
  (tileStarts mnx mxx cell_size).flatMap fun x =>
    (tileStarts mny mxy cell_size).filterMap fun y =>
      match pts.filter (inTile x y cell_size) with
      | [] => none
      | h :: t => some (t.foldl (fun best p => if p.2.2 < best.2.2 then p else best) h)

/-- Method `extract_ground_points`: points with LAS classification 2 when
a classification column exists, otherwise the lowest-per-cell heuristic
with the default cell size 1.0. -/
def extractGroundPoints (proc : Proc) : List Pt :=
  match proc.classification with
  | some cls => ((proc.points.zip cls).filter fun pc => decide (pc.2 = 2)).map Prod.fst
  | none => extractGroundSimple proc.points 1

/-- A raster dictionary as returned by `generate_dtm` / `generate_dsm`:
grid, resolution, `bounds = (min_x, max_x, min_y, max_y)` and
`shape = (ny, nx)`. -/
structure GridModel where
  grid : List (List (Option ℚ))
  resolution : ℚ
  bounds : ℚ × ℚ × ℚ × ℚ
  shape : ℕ × ℕ

/-- Update one cell of a grid. -/
def setCell (g : List (List (Option ℚ))) (j i : ℕ) (v : Option ℚ) :
    List (List (Option ℚ)) :=
  g.set j ((g.getD j []).set i v)

/-- The rasterization loop shared by `generate_dtm` (aggregation by
minimum, `keepNew cur z = (cur is NaN) or z < cur`) and `generate_dsm`
(aggregation by maximum over a grid initialized to `-inf`, which behaves
as `keepNew cur z = (cur unset) or cur < z`). -/
def rasterize (pts : List Pt) (mnx mny res : ℚ) (nx ny : ℕ)
    (keepNew : ℚ → ℚ → Bool) : List (List (Option ℚ)) :=
  pts.foldl (fun g p =>
    let i := ratTrunc ((p.1 - mnx) / res)
    let j := ratTrunc ((p.2.1 - mny) / res)
    if 0 ≤ i ∧ i < (nx : ℤ) ∧ 0 ≤ j ∧ j < (ny : ℤ) then
      match (g.getD j.toNat []).getD i.toNat none with
      | none => setCell g j.toNat i.toNat (some p.2.2)
      | some v => if keepNew v p.2.2 then setCell g j.toNat i.toNat (some p.2.2) else g
    else g)
    (List.replicate ny (List.replicate nx (none : Option ℚ)))

/-- Method `generate_dtm`: grid over the bounding box of the GROUND
points, lowest `z` per cell, then gap filling. -/
def generateDtm (proc : Proc) (res : ℚ) : GridModel :=
  let ground := extractGroundPoints proc
  let mnx := minX ground
  let mxx := maxX ground
  let mny := minY ground
  let mxy := maxY ground
  let nx := (ratTrunc ((mxx - mnx) / res)).toNat + 1
  let ny := (ratTrunc ((mxy - mny) / res)).toNat + 1
  { grid := fillNanGrid (rasterize ground mnx mny res nx ny fun v z => decide (z < v)),
    resolution := res, bounds := (mnx, mxx, mny, mxy), shape := (ny, nx) }

/-- Method `generate_dsm`: grid over the bounding box of ALL points,
highest `z` per cell (`-inf` cells become NaN before filling, which the
`Option` model renders as `none` staying `none`), then gap filling. -/
def generateDsm (proc : Proc) (res : ℚ) : GridModel :=
  let mnx := minX proc.points
  let mxx := maxX proc.points
  let mny := minY proc.points
  let mxy := maxY proc.points
  let nx := (ratTrunc ((mxx - mnx) / res)).toNat + 1
  let ny := (ratTrunc ((mxy - mny) / res)).toNat + 1
  { grid := fillNanGrid (rasterize proc.points mnx mny res nx ny fun v z => decide (v < z)),
    resolution := res, bounds := (mnx, mxx, mny, mxy), shape := (ny, nx) }

/-- Bounding box `(min_x, max_x, min_y, max_y)` of the ground points, the
box `generate_dtm` derives its grid from. -/
def groundBox (proc : Proc) : ℚ × ℚ × ℚ × ℚ :=
  let g := extractGroundPoints proc
  (minX g, maxX g, minY g, maxY g)

/-- Bounding box `(min_x, max_x, min_y, max_y)` of all points, the box
`generate_dsm` derives its grid from. -/
def fullBox (proc : Proc) : ℚ × ℚ × ℚ × ℚ :=
  (minX proc.points, maxX proc.points, minY proc.points, maxY proc.points)

/-! ## Building segmentation (LidarProcessor.calculate_building_heights,
lidar_advanced.py lines 313-347)

`scipy.ndimage.label` with its default structuring element labels the
4-connected components of the boolean mask, numbering them in the order
their first cell appears in raster scan.  The embedding computes the
components as lists of `(row, col)` cells in that discovery order; the
per-component statistics (min, max, mean, centroid) do not depend on the
traversal order inside a component. -/

/-- Raster-order list of the true cells of a mask. -/
def trueCells (mask : List (List Bool)) : List (ℕ × ℕ) :=
  mask.enum.flatMap fun jr =>
    jr.2.enum.filterMap fun ic => if ic.2 then some (jr.1, ic.1) else none

/-- Four-connectivity (cells sharing an edge). -/
def adjacent4 (a b : ℕ × ℕ) : Bool :=
  decide ((a.1 = b.1 ∧ (a.2 + 1 = b.2 ∨ b.2 + 1 = a.2)) ∨
    (a.2 = b.2 ∧ (a.1 + 1 = b.1 ∨ b.1 + 1 = a.1)))

/-- One step of region growing: add every listed cell adjacent to the
component. -/
def growComp (cells comp : List (ℕ × ℕ)) : List (ℕ × ℕ) :=
  comp ++ cells.filter fun c => !(comp.contains c) && comp.any (adjacent4 c)

/-- The connected component of a seed cell, by saturating region growing
(at most `cells.length` rounds are ever needed). -/
def component (cells : List (ℕ × ℕ)) (seed : ℕ × ℕ) : List (ℕ × ℕ) :=
  (growComp cells)^[cells.length] [seed]

/-- All components in order of first raster appearance, mirroring the
label numbering of `scipy.ndimage.label`. -/
def components (cells : List (ℕ × ℕ)) : List (List (ℕ × ℕ)) :=
  cells.foldl (fun acc c =>
    if acc.any fun comp => comp.contains c then acc else acc ++ [component cells c]) []

/-- Elementwise `dsm - dtm` (NaN propagates). -/
def heightGrid (dsm dtm : List (List (Option ℚ))) : List (List (Option ℚ)) :=
  dsm.zipWith (fun dr tr =>
    dr.zipWith (fun d t =>
      match d, t with
      | some a, some b => some (a - b)
      | _, _ => none) tr) dtm

/-- Threshold mask `height_model > 2.0` (a NaN comparison is `False`). -/
def buildingMask (hm : List (List (Option ℚ))) : List (List Bool) :=
  hm.map fun row => row.map fun c =>
    match c with
    | some v => decide (2 < v)
    | none => false

/-- Minimum of a list of rationals (`np.min` of a non-empty array; 0 as
the out-of-domain default for an empty list). -/
def listMin (l : List ℚ) : ℚ :=
  match l with
  | [] => 0
  | h :: t => t.foldl min h

/-- Maximum of a list of rationals. -/
def listMax (l : List ℚ) : ℚ :=
  match l with
  | [] => 0
  | h :: t => t.foldl max h

/-- One record of the `buildings` result list. -/
structure Building where
  id : ℕ
  area_cells : ℕ
  area_m2 : ℚ
  height_min : ℚ
  height_max : ℚ
  height_mean : ℚ
  center_x : ℚ
  center_y : ℚ
deriving DecidableEq

/-- Method `calculate_building_heights`: subtract the grids, threshold at
2.0, label 4-connected components, drop components of fewer than 10
cells, and report statistics for the survivors. -/
def calculateBuildingHeights (dtm dsm : GridModel) : List Building :=
  let hm := heightGrid dsm.grid dtm.grid
  let mask := buildingMask hm
  let comps := components (trueCells mask)
  comps.enum.filterMap fun ic =>
    let comp := ic.2
    if comp.length < 10 then none
    else
      let heights := comp.map fun c => ((hm.getD c.1 []).getD c.2 none).getD 0
      some { id := ic.1 + 1,
             area_cells := comp.length,
             area_m2 := (comp.length : ℚ) * dtm.resolution ^ 2,
             height_min := listMin heights,
             height_max := listMax heights,
             height_mean := heights.sum / (heights.length : ℚ),
             center_x := (comp.map fun c => (c.2 : ℚ)).sum / (comp.length : ℚ) *
               dtm.resolution + dtm.bounds.1,
             center_y := (comp.map fun c => (c.1 : ℚ)).sum / (comp.length : ℚ) *
               dtm.resolution + dtm.bounds.2.2.1 }

/-! ## Viewshed (ViewshedAnalyzer, simulation_advanced.py lines 339-421)

The DEM is a rectangular list of rows of rationals.  Bresenham runs on
integer cell coordinates; the Python loop `while True: append; break at
target; step` is embedded with a fuel of `|dx| + |dy| + 1` steps, which
is enough for the loop to reach the target (each iteration moves one cell
closer on at least one axis, see the progress lemmas below). -/

/-- The Bresenham loop body of `_bresenham_line`, with fuel.  Both step
tests use the value `e2 = 2 * err` computed before any update, exactly as
in the source. -/
def bresAux (x1 y1 dx dy sx sy : ℤ) : ℕ → ℤ → ℤ → ℤ → List (ℤ × ℤ)
  | 0, _, _, _ => []
  | fuel + 1, x, y, err =>
    (x, y) ::
      (if x = x1 ∧ y = y1 then []
       else
         let e2 := 2 * err
         let x' := if -dy < e2 then x + sx else x
         let errx := if -dy < e2 then err - dy else err
         let y' := if e2 < dx then y + sy else y
         let erry := if e2 < dx then errx + dx else errx
         bresAux x1 y1 dx dy sx sy fuel x' y' erry)

/-- Method `_bresenham_line`. -/
def bresenhamLine (x0 y0 x1 y1 : ℤ) : List (ℤ × ℤ) :=
  let dx := |x1 - x0|
  let dy := |y1 - y0|
  let sx : ℤ := if x0 < x1 then 1 else -1
  let sy : ℤ := if y0 < y1 then 1 else -1
  bresAux x1 y1 dx dy sx sy (dx + dy + 1).toNat x0 y0 (dx - dy)

/-- DEM access `dem[r, c]` for the in-bounds accesses performed by the
algorithm (out-of-range reads, which the Python array would reject or
wrap, default to 0; every theorem below stays in bounds). -/
def demGet (dem : List (List ℚ)) (r c : ℤ) : ℚ :=
  if 0 ≤ r ∧ 0 ≤ c then (dem.getD r.toNat []).getD c.toNat 0 else 0

/-- The line-of-sight test of `calculate` for one target cell `(i, j)`:
walk the interior of the Bresenham line (`line_points[1:-1]`, 1-based
`point_idx`), interpolate the sight line at `point_idx / len(line_points)`
between observer and target elevation, and declare the target visible
when no interior cell rises strictly above the interpolated line. -/
def lineOfSight (dem : List (List ℚ)) (obsR obsC : ℕ) (oh th : ℚ)
    (i j : ℕ) : Bool :=
  let lp := bresenhamLine obsR obsC i j
  let obsElev := demGet dem obsR obsC + oh
  let targetElev := demGet dem i j + th
  (List.enumFrom 1 (lp.drop 1).dropLast).all fun pr =>
    !decide (obsElev + ((pr.1 : ℚ) / (lp.length : ℚ)) * (targetElev - obsElev) <
      demGet dem pr.2.1 pr.2.2)

/-- Method `ViewshedAnalyzer.calculate`: the observer cell is visible;
every other cell gets the line-of-sight test. -/
def viewshedCalculate (dem : List (List ℚ)) (obsR obsC : ℕ) (oh th : ℚ) :
    List (List Bool) :=
  let rows := dem.length
  let cols := (dem.headD []).length
  (List.range rows).map fun i =>
    (List.range cols).map fun j =>
      if i = obsR ∧ j = obsC then true
      else lineOfSight dem obsR obsC oh th i j

/-! ## Random sampling (get_lidar_sample, lidar.py lines 171-232)

`np.random.choice(n, k, replace=False)` draws from the hidden global
numpy random state; no seed is taken or set anywhere in the repository.
The ambient state is modelled as an explicit stream of naturals, one draw
per selected element: draw `t` removes the element at position
`stream_t mod (remaining count)` from the pool of not-yet-chosen indices. -/

/-- Selection without replacement of `k` of the indices `0..n-1`, driven
by the ambient random stream. -/
def choiceNoReplace (stream : List ℕ) (n k : ℕ) : List ℕ :=
  go stream (List.range n) k
where
  /-- Draw loop over the pool of remaining indices. -/
  go : List ℕ → List ℕ → ℕ → List ℕ
  | _, _, 0 => []
  | s, pool, k + 1 =>
    if pool.isEmpty then []
    else
      let idx := s.headD 0 % pool.length
      pool.getD idx 0 :: go s.tail (pool.eraseIdx idx) k

/-- The payload assembled by the `/files/id/sample` endpoint from the
chosen indices. -/
structure SampleResult where
  point_count : ℕ
  xs : List ℚ
  ys : List ℚ
  zs : List ℚ
deriving DecidableEq

/-- Endpoint `get_lidar_sample`, processing part: the requested size is
silently clamped by `sample_size = min(sample_size, 50000, len(points))`,
then that many indices are drawn at random and the matching coordinates
are returned. -/
def getLidarSampleM (stream : List ℕ) (pts : List Pt) (sample_size : ℕ) :
    SampleResult :=
  let k := min (min sample_size 50000) pts.length
  let idx := choiceNoReplace stream pts.length k
  { point_count := k,
    xs := idx.map fun i => (pts.getD i default).1,
    ys := idx.map fun i => (pts.getD i default).2.1,
    zs := idx.map fun i => (pts.getD i default).2.2 }

/-! ## Invariants and concrete inputs used by the theorems -/

/-- Structural invariant maintained by insertion: an undivided node has
counted exactly its buffered points; a subdivided node has all eight
children, an empty buffer, and a count equal to the sum of the child
counts. -/
inductive Inv : OctreeNode → Prop
  | leaf : ∀ {n : OctreeNode}, n.children = [] → n.point_count = n.points.length → Inv n
  | node : ∀ {n : OctreeNode}, n.children.length = 8 → n.points = [] →
      n.point_count = (n.children.map OctreeNode.point_count).sum →
      (∀ c ∈ n.children, Inv c) → Inv n

/-- The property claimed of every built octree: at every subdivided node
the child counts sum to the node count. -/
inductive ChildSumInv : OctreeNode → Prop
  | leaf : ∀ {n : OctreeNode}, n.children = [] → ChildSumInv n
  | node : ∀ {n : OctreeNode}, n.children ≠ [] →
      n.point_count = (n.children.map OctreeNode.point_count).sum →
      (∀ c ∈ n.children, ChildSumInv c) → ChildSumInv n

/-- Append points to the buffer of an undivided node, counting them. -/
def bufferAdd (n : OctreeNode) (ps : List (Pt × ℕ)) : OctreeNode :=
  { n with point_count := n.point_count + ps.length, points := n.points ++ ps }

/-- The origin point. -/
def p0 : Pt := ((0 : ℚ), (0 : ℚ), (0 : ℚ))

/-- Degenerate all-zero box: the bounding box that `build_octree` computes
for a cloud of coincident points at the origin. -/
def zeroB : Bounds := ⟨0, 0, 0, 0, 0, 0⟩

/-- The unit box. -/
def unitB : Bounds := ⟨0, 1, 0, 1, 0, 1⟩

/-- A node at level 10 whose buffer holds `max_points_per_node` points at
the origin: the state a leaf reaches after 50000 accepted inserts. -/
def badNode10 : OctreeNode :=
  ⟨unitB, 10, List.replicate 50000 (p0, 0), [], 50000, 50000⟩

/-- Loop invariant of the Bresenham walk: the step signs are units, the
remaining distances `sx*(x1-x)` and `sy*(y1-y)` stay within `[0, dx]` and
`[0, dy]`, and the error term tracks the step counts. -/
def BresInv (x1 y1 dx dy sx sy x y err : ℤ) : Prop :=
  (sx = 1 ∨ sx = -1) ∧ (sy = 1 ∨ sy = -1) ∧ 0 ≤ dx ∧ 0 ≤ dy ∧
    0 ≤ sx * (x1 - x) ∧ sx * (x1 - x) ≤ dx ∧
    0 ≤ sy * (y1 - y) ∧ sy * (y1 - y) ≤ dy ∧
    err = dx * (1 + dy - sy * (y1 - y)) - dy * (1 + dx - sx * (x1 - x))

/-- Every cell of a boolean grid is set. -/
def allTrue (g : List (List Bool)) : Prop :=
  ∀ row ∈ g, ∀ b ∈ row, b = true

/-- Two points whose x-extent is an exact multiple of the tile size 10:
the second point sits on the maximal x boundary of the bounding box. -/
def ptsBoundary : List Pt := [((0 : ℚ), 0, 0), ((10 : ℚ), 5, 0)]

/-- Two points in general position inside one tile. -/
def ptsTileW : List Pt := [((0 : ℚ), 0, 0), ((3 : ℚ), 4, 1)]

/-- Two distinct points, used by the sampling theorems. -/
def pts2 : List Pt := [((0 : ℚ), 0, 0), ((1 : ℚ), 1, 1)]

/-- The 3x3 all-zero DTM of the concrete segmentation scenario. -/
def dtm3 : GridModel :=
  ⟨[[some 0, some 0, some 0], [some 0, some 0, some 0], [some 0, some 0, some 0]],
    1, (0, 3, 0, 3), (3, 3)⟩

/-- The 3x3 DSM `[[0,0,0],[0,5,0],[0,0,0]]` of the concrete segmentation
scenario. -/
def dsm3 : GridModel :=
  ⟨[[some 0, some 0, some 0], [some 0, some 5, some 0], [some 0, some 0, some 0]],
    1, (0, 3, 0, 3), (3, 3)⟩

/-- A one-row grid with two distinct resolved cells. -/
def gRow2 : List (List (Option ℚ)) := [[some 0, some 2]]

/-- A processor whose ground points (classification 2) span a smaller box
than the full cloud. -/
def procSplit : Proc := ⟨[((0 : ℚ), 0, 0), ((10 : ℚ), 10, 5)], some [2, 1]⟩

/-- A processor whose points are all ground-classified. -/
def procGround : Proc := ⟨[((0 : ℚ), 0, 0), ((2 : ℚ), 3, 1)], some [2, 2]⟩

/-! ## Octree count invariant (claim C1) -/

theorem getOctant_lt_eight (b : Bounds) (p : Pt) : getOctant b p < 8 := by
  simp only [getOctant]
  split_ifs <;> omega

theorem inv_default : Inv (default : OctreeNode) := Inv.leaf rfl rfl

theorem inv_getD (cs : List OctreeNode) (i : ℕ) (h : ∀ c ∈ cs, Inv c) :
    Inv (cs.getD i default) := by
  rcases Nat.lt_or_ge i cs.length with hlt | hge
  · refine h _ ?_
    rw [List.getD_eq_getElem?_getD, List.getElem?_eq_getElem hlt]
    exact List.getElem_mem hlt
  · rw [List.getD_eq_getElem?_getD, List.getElem?_eq_none hge]
    exact inv_default

theorem sum_map_set_count (cs : List OctreeNode) :
    ∀ (i : ℕ) (c : OctreeNode), i < cs.length →
      c.point_count = (cs.getD i default).point_count + 1 →
      ((cs.set i c).map OctreeNode.point_count).sum =
        (cs.map OctreeNode.point_count).sum + 1 := by
  induction cs with
  | nil => intro i c h; simp at h
  | cons a t ih =>
    intro i c hlt hc
    cases i with
    | zero =>
      simp only [List.getD_cons_zero] at hc
      simp only [List.set_cons_zero, List.map_cons, List.sum_cons, hc]
      omega
    | succ m =>
      simp only [List.getD_cons_succ] at hc
      have hm : m < t.length := by simpa using hlt
      have := ih m c hm hc
      simp only [List.set_cons_succ, List.map_cons, List.sum_cons, this]
      omega

theorem sum_mkNode_children (bs : List Bounds) (l : ℕ) :
    (((bs.map fun bb => mkNode bb l).map OctreeNode.point_count)).sum = 0 := by
  induction bs with
  | nil => simp
  | cons b t ih =>
    simp only [List.map_cons, List.sum_cons]
    rw [ih]
    simp [mkNode]

theorem redistributeGo_inv (ins : OctreeNode → Pt → ℕ → Option OctreeNode)
    (hins : ∀ n p a t, ins n p a = some t → Inv n → Inv t ∧ t.point_count = n.point_count + 1)
    (b : Bounds) :
    ∀ (pts : List (Pt × ℕ)) (cs cs' : List OctreeNode),
      redistributeGo ins b cs pts = some cs' → (∀ c ∈ cs, Inv c) → cs.length = 8 →
      (∀ c ∈ cs', Inv c) ∧
        (cs'.map OctreeNode.point_count).sum =
          (cs.map OctreeNode.point_count).sum + pts.length ∧
        cs'.length = 8 := by
  intro pts
  induction pts with
  | nil =>
    intro cs cs' h hI hL
    simp only [redistributeGo, Option.some.injEq] at h
    subst h
    exact ⟨hI, by simp, hL⟩
  | cons pa rest ih =>
    intro cs cs' h hI hL
    simp only [redistributeGo] at h
    cases hieq : ins (cs.getD (getOctant b pa.1) default) pa.1 pa.2 with
    | none => rw [hieq] at h; simp at h
    | some c =>
      rw [hieq] at h
      simp only at h
      obtain ⟨hIc, hCc⟩ := hins _ _ _ _ hieq (inv_getD _ _ hI)
      have hoct : getOctant b pa.1 < cs.length := by
        rw [hL]; exact getOctant_lt_eight b pa.1
      have hI' : ∀ x ∈ cs.set (getOctant b pa.1) c, Inv x := by
        intro x hx
        rcases List.mem_or_eq_of_mem_set hx with hx | rfl
        · exact hI x hx
        · exact hIc
      have hL' : (cs.set (getOctant b pa.1) c).length = 8 := by
        rw [List.length_set]; exact hL
      obtain ⟨a1, a2, a3⟩ := ih _ _ h hI' hL'
      refine ⟨a1, ?_, a3⟩
      rw [a2, sum_map_set_count cs _ c hoct hCc]
      simp
      omega

theorem insertF_inv : ∀ (fuel : ℕ) (n : OctreeNode) (p : Pt) (a : ℕ) (t : OctreeNode),
    insertF fuel n p a = some t → Inv n → Inv t ∧ t.point_count = n.point_count + 1 := by
  intro fuel
  induction fuel with
  | zero => intro n p a t h; simp [insertF] at h
  | succ fuel ih =>
    intro n p a t h hInv
    obtain ⟨bds, lvl, ptsb, cs, cnt, cap⟩ := n
    rw [show insertF (fuel + 1) = insertGo (insertF fuel) from rfl] at h
    unfold insertGo at h
    dsimp only at h
    by_cases hcond : (cs.isEmpty = true ∧ cap ≤ ptsb.length)
    · rw [if_pos hcond] at h
      have hcs : cs = [] := List.isEmpty_iff.mp hcond.1
      subst hcs
      have hcnt : cnt = ptsb.length := by
        cases hInv with
        | leaf _ h2 => exact h2
        | node h1 => simp at h1
      unfold subdivide at h
      dsimp only at h
      cases hred : redistributeGo (insertF fuel) bds
          ((childBoxes bds).map fun bb => mkNode bb (lvl + 1)) ptsb with
      | none => rw [hred] at h; simp at h
      | some csNew =>
        rw [hred] at h
        dsimp only at h
        obtain ⟨hINew, hSumNew, hLenNew⟩ :=
          redistributeGo_inv (insertF fuel) (fun n p a t hh hI => ih n p a t hh hI)
            bds ptsb _ _ hred
            (by
              intro c hc
              simp only [List.mem_map] at hc
              obtain ⟨bb, _, rfl⟩ := hc
              exact Inv.leaf rfl rfl)
            (by simp [childBoxes])
        rw [sum_mkNode_children] at hSumNew
        have hne : ¬(csNew.isEmpty = true) := by
          intro hE
          rw [List.isEmpty_iff.mp hE] at hLenNew
          simp at hLenNew
        rw [if_neg hne] at h
        cases hcins : insertF fuel (csNew.getD (getOctant bds p) default) p a with
        | none => rw [hcins] at h; simp at h
        | some c =>
          rw [hcins] at h
          simp only [Option.some.injEq] at h
          subst h
          obtain ⟨hIc, hCc⟩ := ih _ _ _ _ hcins (inv_getD _ _ hINew)
          have hoct : getOctant bds p < csNew.length := by
            rw [hLenNew]; exact getOctant_lt_eight bds p
          constructor
          · refine Inv.node ?_ rfl ?_ ?_
            · simpa [List.length_set] using hLenNew
            · dsimp only
              rw [sum_map_set_count csNew _ c hoct hCc, hSumNew]
              omega
            · intro x hx
              rcases List.mem_or_eq_of_mem_set hx with hx | rfl
              · exact hINew x hx
              · exact hIc
          · rfl
    · rw [if_neg hcond] at h
      dsimp only at h
      by_cases hcs : (cs.isEmpty = true)
      · have hcsnil : cs = [] := List.isEmpty_iff.mp hcs
        subst hcsnil
        have hE : ([] : List OctreeNode).isEmpty = true := rfl
        rw [if_pos hE] at h
        simp only [Option.some.injEq] at h
        subst h
        have hcnt : cnt = ptsb.length := by
          cases hInv with
          | leaf _ h2 => exact h2
          | node h1 => simp at h1
        constructor
        · refine Inv.leaf rfl ?_
          dsimp only
          rw [List.length_append, hcnt]
          simp
        · rfl
      · rw [if_neg hcs] at h
        have hne : cs ≠ [] := fun hE => hcs (by simp [hE])
        obtain ⟨hlen, hpts, hsum, hchInv⟩ :
            cs.length = 8 ∧ ptsb = [] ∧
              cnt = (cs.map OctreeNode.point_count).sum ∧ ∀ c ∈ cs, Inv c := by
          cases hInv with
          | leaf h1 => exact absurd h1 hne
          | node h1 h2 h3 h4 => exact ⟨h1, h2, h3, h4⟩
        cases hcins : insertF fuel (cs.getD (getOctant bds p) default) p a with
        | none => rw [hcins] at h; simp at h
        | some c =>
          rw [hcins] at h
          simp only [Option.some.injEq] at h
          subst h
          obtain ⟨hIc, hCc⟩ := ih _ _ _ _ hcins (inv_getD _ _ hchInv)
          have hoct : getOctant bds p < cs.length := by
            rw [hlen]; exact getOctant_lt_eight bds p
          constructor
          · refine Inv.node ?_ hpts ?_ ?_
            · simpa [List.length_set] using hlen
            · dsimp only
              rw [sum_map_set_count cs _ c hoct hCc, ← hsum]
            · intro x hx
              rcases List.mem_or_eq_of_mem_set hx with hx | rfl
              · exact hchInv x hx
              · exact hIc
          · rfl

theorem insertListF_inv :
    ∀ (l : List (Pt × ℕ)) (fuel : ℕ) (n t : OctreeNode),
      insertListF fuel n l = some t → Inv n →
      Inv t ∧ t.point_count = n.point_count + l.length := by
  intro l
  induction l with
  | nil =>
    intro fuel n t h hI
    simp only [insertListF, Option.some.injEq] at h
    subst h
    exact ⟨hI, by simp⟩
  | cons pa rest ih =>
    intro fuel n t h hI
    simp only [insertListF] at h
    cases hins : insertF fuel n pa.1 pa.2 with
    | none => rw [hins] at h; simp at h
    | some m =>
      rw [hins] at h
      obtain ⟨hIm, hCm⟩ := insertF_inv fuel n pa.1 pa.2 m hins hI
      obtain ⟨hIt, hCt⟩ := ih fuel m t h hIm
      refine ⟨hIt, ?_⟩
      rw [hCt, hCm]
      simp
      omega

theorem inv_childSumInv {n : OctreeNode} (h : Inv n) : ChildSumInv n := by
  induction h with
  | leaf h1 _ => exact ChildSumInv.leaf h1
  | node h1 _ h3 _ ih =>
    refine ChildSumInv.node ?_ h3 ih
    intro hnil
    rw [hnil] at h1
    simp at h1

/-- Claim C1: after any successful octree build (any fuel large enough
for the insertion recursion to complete), every subdivided node's point
count equals the sum of its children's point counts, and the root count
equals the number of inserted points. -/
theorem octree_child_count_sum (pts : List Pt) (fuel : ℕ) (t : OctreeNode)
    (h : buildOctreeF fuel pts = some t) :
    ChildSumInv t ∧ t.point_count = pts.length := by
  unfold buildOctreeF at h
  obtain ⟨hI, hc⟩ := insertListF_inv _ _ _ _ h (Inv.leaf rfl rfl)
  refine ⟨inv_childSumInv hI, ?_⟩
  rw [hc]
  simp [mkNode, indexPts]

/-- Witness for C1 at a concrete one-point build. -/
theorem octree_child_count_sum_witness :
    ChildSumInv ((buildOctreeF 1 [p0]).getD default) ∧
      ((buildOctreeF 1 [p0]).getD default).point_count = 1 :=
  octree_child_count_sum [p0] 1 _ (by rfl)

/-! ## Missing depth cap and divergence (claims C4 and C9) -/

theorem getD_mem {α : Type} (l : List α) (i : ℕ) (d : α) (h : i < l.length) :
    l.getD i d ∈ l := by
  rw [List.getD_eq_getElem?_getD, List.getElem?_eq_getElem h]
  exact List.getElem_mem h

theorem getD_set_self {α : Type} (l : List α) (i : ℕ) (a d : α) (h : i < l.length) :
    (l.set i a).getD i d = a := by
  rw [List.getD_eq_getElem?_getD, List.getElem?_set_self (by simpa using h)]
  rfl

theorem getD_set_ne {α : Type} (l : List α) {i j : ℕ} (hne : i ≠ j) (a d : α) :
    (l.set i a).getD j d = l.getD j d := by
  rw [List.getD_eq_getElem?_getD, List.getElem?_set_ne hne, ← List.getD_eq_getElem?_getD]

theorem set_getD_self {α : Type} (l : List α) :
    ∀ (i : ℕ) (d : α), i < l.length → l.set i (l.getD i d) = l := by
  induction l with
  | nil => intro i d h; simp at h
  | cons a t ih =>
    intro i d h
    cases i with
    | zero => simp
    | succ m =>
      simp only [List.getD_cons_succ, List.set_cons_succ]
      rw [ih m d (by simpa using h)]

theorem bufferAdd_nil (n : OctreeNode) : bufferAdd n [] = n := by
  obtain ⟨bds, lvl, ptsb, cs, cnt, cap⟩ := n
  simp [bufferAdd]

theorem bufferAdd_append (n : OctreeNode) (l1 l2 : List (Pt × ℕ)) :
    bufferAdd (bufferAdd n l1) l2 = bufferAdd n (l1 ++ l2) := by
  simp [bufferAdd, List.append_assoc, Nat.add_assoc]

theorem insertF_leaf_append (fuel : ℕ) (n : OctreeNode) (p : Pt) (a : ℕ)
    (hch : n.children = []) (hlen : n.points.length < n.max_points_per_node) :
    insertF (fuel + 1) n p a = some (bufferAdd n [(p, a)]) := by
  obtain ⟨bds, lvl, ptsb, cs, cnt, cap⟩ := n
  dsimp only at hch hlen
  subst hch
  rw [show insertF (fuel + 1) = insertGo (insertF fuel) from rfl]
  unfold insertGo
  dsimp only
  rw [if_neg (by
    rintro ⟨-, hc⟩
    exact absurd hc (not_le.mpr hlen))]
  dsimp only
  have hE : ([] : List OctreeNode).isEmpty = true := rfl
  rw [if_pos hE]
  simp [bufferAdd]

theorem redistribute_coincident :
    ∀ (ps : List (Pt × ℕ)) (fuel : ℕ) (b : Bounds) (cs : List OctreeNode) (q : Pt),
      (∀ pa ∈ ps, pa.1 = q) → getOctant b q < cs.length →
      (cs.getD (getOctant b q) default).children = [] →
      (cs.getD (getOctant b q) default).points.length + ps.length ≤
        (cs.getD (getOctant b q) default).max_points_per_node →
      redistributeGo (insertF (fuel + 1)) b cs ps =
        some (cs.set (getOctant b q) (bufferAdd (cs.getD (getOctant b q) default) ps)) := by
  intro ps
  induction ps with
  | nil =>
    intro fuel b cs q _ hlt _ _
    rw [bufferAdd_nil, set_getD_self cs _ _ hlt]
    rfl
  | cons pa rest ih =>
    intro fuel b cs q hcoin hlt hch hcap
    have hpa : pa.1 = q := hcoin pa (List.mem_cons_self pa rest)
    have hoct : getOctant b pa.1 = getOctant b q := by rw [hpa]
    simp only [redistributeGo]
    rw [hoct, insertF_leaf_append fuel _ pa.1 pa.2 hch (by
      simp only [List.length_cons] at hcap
      omega)]
    dsimp only
    have hlt' : getOctant b q < (cs.set (getOctant b q)
        (bufferAdd (cs.getD (getOctant b q) default) [(pa.1, pa.2)])).length := by
      rw [List.length_set]; exact hlt
    have hgd : ((cs.set (getOctant b q)
          (bufferAdd (cs.getD (getOctant b q) default) [(pa.1, pa.2)])).getD
            (getOctant b q) default) =
        bufferAdd (cs.getD (getOctant b q) default) [(pa.1, pa.2)] :=
      getD_set_self _ _ _ _ hlt
    have hrec := ih fuel b
      (cs.set (getOctant b q) (bufferAdd (cs.getD (getOctant b q) default) [(pa.1, pa.2)]))
      q (fun x hx => hcoin x (List.mem_cons_of_mem pa hx)) hlt'
      (by
        rw [hgd]
        dsimp only [bufferAdd]
        exact hch)
      (by
        rw [hgd]
        dsimp only [bufferAdd]
        simp only [List.length_append, List.length_cons, List.length_nil] at hcap ⊢
        omega)
    rw [hrec, hgd, List.set_set, bufferAdd_append]
    simp

theorem insertF_full_coincident_subdivides (fuel : ℕ) (bds : Bounds) (lvl cnt : ℕ)
    (ps : List (Pt × ℕ)) (p : Pt) (a : ℕ) (q : Pt)
    (hfull : 50000 ≤ ps.length) (hcap : ps.length ≤ 50000)
    (hcoin : ∀ pa ∈ ps, pa.1 = q)
    (hpq : getOctant bds p ≠ getOctant bds q) :
    ∃ cs', insertF (fuel + 2) ⟨bds, lvl, ps, [], cnt, 50000⟩ p a =
        some ⟨bds, lvl, [], cs', cnt + 1, 50000⟩ ∧
      cs'.length = 8 ∧ ∀ c ∈ cs', c.level = lvl + 1 := by
  rw [show fuel + 2 = (fuel + 1) + 1 from rfl,
    show insertF ((fuel + 1) + 1) = insertGo (insertF (fuel + 1)) from rfl]
  unfold insertGo
  dsimp only
  rw [if_pos ⟨rfl, hfull⟩]
  unfold subdivide
  dsimp only
  have hlen0 : ((childBoxes bds).map fun bb => mkNode bb (lvl + 1)).length = 8 := by
    simp [childBoxes]
  have hlt : getOctant bds q < ((childBoxes bds).map fun bb => mkNode bb (lvl + 1)).length := by
    rw [hlen0]; exact getOctant_lt_eight bds q
  obtain ⟨bb, hbbmem, hbbeq⟩ :=
    List.mem_map.mp (getD_mem _ (getOctant bds q) default hlt)
  have hch0 : ((((childBoxes bds).map fun bb => mkNode bb (lvl + 1))).getD
      (getOctant bds q) default).children = [] := by rw [← hbbeq]; rfl
  have hpt0 : ((((childBoxes bds).map fun bb => mkNode bb (lvl + 1))).getD
      (getOctant bds q) default).points.length = 0 := by rw [← hbbeq]; rfl
  have hmax0 : ((((childBoxes bds).map fun bb => mkNode bb (lvl + 1))).getD
      (getOctant bds q) default).max_points_per_node = 50000 := by rw [← hbbeq]; rfl
  have hred := redistribute_coincident ps fuel bds
    ((childBoxes bds).map fun bb => mkNode bb (lvl + 1)) q hcoin hlt hch0
    (by rw [hpt0, hmax0]; omega)
  rw [hred]
  dsimp only
  have hlen1 : (((childBoxes bds).map fun bb => mkNode bb (lvl + 1)).set (getOctant bds q)
      (bufferAdd ((((childBoxes bds).map fun bb => mkNode bb (lvl + 1))).getD
        (getOctant bds q) default) ps)).length = 8 := by
    rw [List.length_set]; exact hlen0
  have hne1 : ¬((((childBoxes bds).map fun bb => mkNode bb (lvl + 1)).set (getOctant bds q)
      (bufferAdd ((((childBoxes bds).map fun bb => mkNode bb (lvl + 1))).getD
        (getOctant bds q) default) ps)).isEmpty = true) := by
    intro hE
    rw [List.isEmpty_iff.mp hE] at hlen1
    simp at hlen1
  rw [if_neg hne1]
  have hltp : getOctant bds p < ((childBoxes bds).map fun bb => mkNode bb (lvl + 1)).length := by
    rw [hlen0]; exact getOctant_lt_eight bds p
  obtain ⟨bb2, hbb2mem, hbb2eq⟩ :=
    List.mem_map.mp (getD_mem _ (getOctant bds p) default hltp)
  rw [getD_set_ne _ (Ne.symm hpq), ← hbb2eq,
    insertF_leaf_append fuel (mkNode bb2 (lvl + 1)) p a rfl (by simp [mkNode])]
  dsimp only
  refine ⟨_, rfl, ?_, ?_⟩
  · rw [List.length_set]; exact hlen1
  · intro c hc
    rcases List.mem_or_eq_of_mem_set hc with hc | rfl
    · rcases List.mem_or_eq_of_mem_set hc with hc | rfl
      · obtain ⟨bb3, _, rfl⟩ := List.mem_map.mp hc
        rfl
      · rw [← hbbeq]; rfl
    · rfl

/-- Claim C4, what the code actually does: a node at level 10 (the
documented `max_level` of `build_octree`) whose buffer is full does
subdivide on the next insert, producing eight children at level 11 —
`insert` never consults any depth cap. -/
theorem insert_ignores_depth_cap :
    insertF 2 badNode10 ((1 : ℚ), (1 : ℚ), (1 : ℚ)) 0 ≠ none ∧
      ((insertF 2 badNode10 ((1 : ℚ), (1 : ℚ), (1 : ℚ)) 0).getD default).children.length = 8 ∧
      (∀ c ∈ ((insertF 2 badNode10 ((1 : ℚ), (1 : ℚ), (1 : ℚ)) 0).getD default).children,
        c.level = 11) ∧
      badNode10.level = 10 := by
  have ho1 : getOctant unitB ((1 : ℚ), (1 : ℚ), (1 : ℚ)) = 7 := by
    norm_num [getOctant, unitB]
  have ho0 : getOctant unitB p0 = 0 := by
    norm_num [getOctant, unitB, p0]
  obtain ⟨cs', hEq, hLen, hLvl⟩ := insertF_full_coincident_subdivides 0 unitB 10 50000
    (List.replicate 50000 (p0, 0)) ((1 : ℚ), (1 : ℚ), (1 : ℚ)) 0 p0
    (by rw [List.length_replicate]) (by rw [List.length_replicate])
    (by intro pa hpa; rw [List.eq_of_mem_replicate hpa])
    (by rw [ho1, ho0]; omega)
  have hEq' : insertF 2 badNode10 ((1 : ℚ), (1 : ℚ), (1 : ℚ)) 0 =
      some ⟨unitB, 10, [], cs', 50001, 50000⟩ := hEq
  rw [hEq']
  refine ⟨by simp, by simpa using hLen, ?_, rfl⟩
  intro c hc
  exact hLvl c (by simpa using hc)

theorem insertF_coincident_full_none (A : ℕ) :
    ∀ (fuel lvl cnt : ℕ) (ps : List (Pt × ℕ)),
      ps.length = 50000 → (∀ pa ∈ ps, pa.1 = p0) →
      insertF fuel ⟨zeroB, lvl, ps, [], cnt, 50000⟩ p0 A = none := by
  intro fuel
  induction fuel with
  | zero => intro lvl cnt ps _ _; rfl
  | succ fuel ih =>
    intro lvl cnt ps hlen hcoin
    rw [show insertF (fuel + 1) = insertGo (insertF fuel) from rfl]
    unfold insertGo
    dsimp only
    rw [if_pos ⟨rfl, by rw [hlen]⟩]
    unfold subdivide
    dsimp only
    cases fuel with
    | zero =>
      cases ps with
      | nil => simp at hlen
      | cons pa rest => simp [redistributeGo, insertF]
    | succ fuel2 =>
      have hlen0 : ((childBoxes zeroB).map fun bb => mkNode bb (lvl + 1)).length = 8 := by
        simp [childBoxes]
      have hlt : getOctant zeroB p0 <
          ((childBoxes zeroB).map fun bb => mkNode bb (lvl + 1)).length := by
        rw [hlen0]; exact getOctant_lt_eight zeroB p0
      obtain ⟨bb, hbbmem, hbbeq⟩ :=
        List.mem_map.mp (getD_mem _ (getOctant zeroB p0) default hlt)
      have hch0 : ((((childBoxes zeroB).map fun bb => mkNode bb (lvl + 1))).getD
          (getOctant zeroB p0) default).children = [] := by rw [← hbbeq]; rfl
      have hpt0 : ((((childBoxes zeroB).map fun bb => mkNode bb (lvl + 1))).getD
          (getOctant zeroB p0) default).points.length = 0 := by rw [← hbbeq]; rfl
      have hmax0 : ((((childBoxes zeroB).map fun bb => mkNode bb (lvl + 1))).getD
          (getOctant zeroB p0) default).max_points_per_node = 50000 := by
        rw [← hbbeq]; rfl
      have hred := redistribute_coincident ps fuel2 zeroB
        ((childBoxes zeroB).map fun bb => mkNode bb (lvl + 1)) p0 hcoin hlt hch0
        (by rw [hpt0, hmax0, hlen])
      rw [hred]
      dsimp only
      have hlen1 : (((childBoxes zeroB).map fun bb => mkNode bb (lvl + 1)).set
          (getOctant zeroB p0)
          (bufferAdd ((((childBoxes zeroB).map fun bb => mkNode bb (lvl + 1))).getD
            (getOctant zeroB p0) default) ps)).length = 8 := by
        rw [List.length_set]; exact hlen0
      have hne1 : ¬((((childBoxes zeroB).map fun bb => mkNode bb (lvl + 1)).set
          (getOctant zeroB p0)
          (bufferAdd ((((childBoxes zeroB).map fun bb => mkNode bb (lvl + 1))).getD
            (getOctant zeroB p0) default) ps)).isEmpty = true) := by
        intro hE
        rw [List.isEmpty_iff.mp hE] at hlen1
        simp at hlen1
      rw [if_neg hne1]
      rw [getD_set_self _ _ _ _ hlt, ← hbbeq]
      have hbbz : bb = zeroB := by
        simp only [childBoxes, zeroB] at hbbmem
        norm_num at hbbmem
        exact hbbmem
      rw [hbbz]
      have hba : bufferAdd (mkNode zeroB (lvl + 1)) ps =
          ⟨zeroB, lvl + 1, ps, [], ps.length, 50000⟩ := by
        simp [bufferAdd, mkNode]
      rw [hba, ih (lvl + 1) ps.length ps hlen hcoin]

theorem insertListF_fuel_zero (l : List (Pt × ℕ)) (hne : l ≠ []) (n : OctreeNode) :
    insertListF 0 n l = none := by
  cases l with
  | nil => exact absurd rfl hne
  | cons a r => rfl

theorem insertListF_append (fuel : ℕ) :
    ∀ (l1 l2 : List (Pt × ℕ)) (n : OctreeNode),
      insertListF fuel n (l1 ++ l2) =
        match insertListF fuel n l1 with
        | none => none
        | some m => insertListF fuel m l2 := by
  intro l1
  induction l1 with
  | nil => intro l2 n; rfl
  | cons pa rest ih =>
    intro l2 n
    simp only [List.cons_append, insertListF]
    cases insertF fuel n pa.1 pa.2 with
    | none => rfl
    | some m => exact ih l2 m

theorem insertListF_fill :
    ∀ (l : List (Pt × ℕ)) (fuel : ℕ) (n : OctreeNode),
      n.children = [] → n.points.length + l.length ≤ n.max_points_per_node →
      insertListF (fuel + 1) n l = some (bufferAdd n l) := by
  intro l
  induction l with
  | nil =>
    intro fuel n _ _
    rw [bufferAdd_nil]
    rfl
  | cons pa rest ih =>
    intro fuel n hch hcap
    simp only [insertListF]
    rw [insertF_leaf_append fuel n pa.1 pa.2 hch (by
      simp only [List.length_cons] at hcap
      omega)]
    dsimp only
    rw [ih fuel (bufferAdd n [(pa.1, pa.2)])
      (by dsimp only [bufferAdd]; exact hch)
      (by
        dsimp only [bufferAdd]
        simp only [List.length_append, List.length_cons, List.length_nil] at hcap ⊢
        omega)]
    rw [bufferAdd_append]
    simp

theorem foldl_const_replicate {α β : Type} (g : β → α → β) (c : β) (x : α)
    (hg : g c x = c) : ∀ n : ℕ, List.foldl g c (List.replicate n x) = c := by
  intro n
  induction n with
  | zero => rfl
  | succ m ih => rw [List.replicate_succ, List.foldl_cons, hg, ih]

theorem indexPts_fst_mem (pts : List Pt) (pa : Pt × ℕ) (h : pa ∈ indexPts pts) :
    pa.1 ∈ pts := by
  unfold indexPts at h
  obtain ⟨ia, hia, rfl⟩ := List.mem_map.mp h
  obtain ⟨i, x⟩ := ia
  obtain ⟨-, -, hx⟩ := List.mem_enumFrom hia
  dsimp only
  rw [hx]
  exact List.getElem_mem _

theorem indexPts_length (pts : List Pt) : (indexPts pts).length = pts.length := by
  simp [indexPts, List.enum_length]

theorem insertListF_single_none (fuel : ℕ) (n : OctreeNode) (pa : Pt × ℕ)
    (h : insertF fuel n pa.1 pa.2 = none) : insertListF fuel n [pa] = none := by
  simp [insertListF, h]

theorem bufferAdd_mkZero (l : List (Pt × ℕ)) :
    bufferAdd (mkNode ⟨0, 0, 0, 0, 0, 0⟩ 0) l = ⟨zeroB, 0, l, [], l.length, 50000⟩ := by
  dsimp only [bufferAdd, mkNode]
  rw [List.nil_append, Nat.zero_add]
  exact rfl

/-- Claim C9, what the code actually does: building an octree from 50001
coincident points never returns, whatever recursion depth is allowed (the
node overflows, subdivides, sends all its points to the same child and
recurses on an identical full child forever; Python raises
RecursionError). -/
theorem octree_build_diverges_on_coincident (fuel : ℕ) :
    buildOctreeF fuel (List.replicate 50001 p0) = none := by
  unfold buildOctreeF
  have h1 : minX (List.replicate 50001 p0) = 0 := by
    rw [show (50001 : ℕ) = 50000 + 1 from rfl, List.replicate_succ]
    simp only [minX]
    exact foldl_const_replicate _ _ _ (by simp [p0]) 50000
  have h2 : maxX (List.replicate 50001 p0) = 0 := by
    rw [show (50001 : ℕ) = 50000 + 1 from rfl, List.replicate_succ]
    simp only [maxX]
    exact foldl_const_replicate _ _ _ (by simp [p0]) 50000
  have h3 : minY (List.replicate 50001 p0) = 0 := by
    rw [show (50001 : ℕ) = 50000 + 1 from rfl, List.replicate_succ]
    simp only [minY]
    exact foldl_const_replicate _ _ _ (by simp [p0]) 50000
  have h4 : maxY (List.replicate 50001 p0) = 0 := by
    rw [show (50001 : ℕ) = 50000 + 1 from rfl, List.replicate_succ]
    simp only [maxY]
    exact foldl_const_replicate _ _ _ (by simp [p0]) 50000
  have h5 : minZ (List.replicate 50001 p0) = 0 := by
    rw [show (50001 : ℕ) = 50000 + 1 from rfl, List.replicate_succ]
    simp only [minZ]
    exact foldl_const_replicate _ _ _ (by simp [p0]) 50000
  have h6 : maxZ (List.replicate 50001 p0) = 0 := by
    rw [show (50001 : ℕ) = 50000 + 1 from rfl, List.replicate_succ]
    simp only [maxZ]
    exact foldl_const_replicate _ _ _ (by simp [p0]) 50000
  rw [h1, h2, h3, h4, h5, h6]
  have hne : indexPts (List.replicate 50001 p0) ≠ [] := by
    intro hE
    have h0 := indexPts_length (List.replicate 50001 p0)
    rw [hE, List.length_nil, List.length_replicate] at h0
    omega
  have hcoin : ∀ pa ∈ indexPts (List.replicate 50001 p0), pa.1 = p0 := by
    intro pa hpa
    exact List.eq_of_mem_replicate (indexPts_fst_mem _ _ hpa)
  cases fuel with
  | zero => exact insertListF_fuel_zero _ hne _
  | succ f =>
    rw [← List.dropLast_append_getLast hne, insertListF_append]
    have hdl : (indexPts (List.replicate 50001 p0)).dropLast.length = 50000 := by
      rw [List.length_dropLast, indexPts_length, List.length_replicate]
    have hcap : (mkNode ⟨0, 0, 0, 0, 0, 0⟩ 0).points.length +
        (indexPts (List.replicate 50001 p0)).dropLast.length ≤
        (mkNode ⟨0, 0, 0, 0, 0, 0⟩ 0).max_points_per_node := by
      rw [hdl]
      exact Nat.le_refl 50000
    rw [insertListF_fill _ f (mkNode ⟨0, 0, 0, 0, 0, 0⟩ 0) rfl hcap]
    show insertListF (f + 1)
        (bufferAdd (mkNode ⟨0, 0, 0, 0, 0, 0⟩ 0)
          (indexPts (List.replicate 50001 p0)).dropLast)
        [(indexPts (List.replicate 50001 p0)).getLast hne] = none
    have hlast1 : ((indexPts (List.replicate 50001 p0)).getLast hne).1 = p0 :=
      hcoin _ (List.getLast_mem hne)
    refine insertListF_single_none (f + 1) _ _ ?_
    rw [hlast1, bufferAdd_mkZero (indexPts (List.replicate 50001 p0)).dropLast]
    exact insertF_coincident_full_none _ (f + 1) 0 _ _ hdl
      (fun pa hpa => hcoin pa (List.dropLast_subset _ hpa))

/-! ## Tile assignment (claim C2) -/

theorem foldl_min_le_init {α : Type} [LinearOrder α] :
    ∀ (l : List α) (a : α), l.foldl min a ≤ a := by
  intro l
  induction l with
  | nil => intro a; exact le_rfl
  | cons b t ih =>
    intro a
    exact le_trans (ih (min a b)) (min_le_left a b)

theorem foldl_min_le_mem {α : Type} [LinearOrder α] :
    ∀ (l : List α) (a x : α), x ∈ l → l.foldl min a ≤ x := by
  intro l
  induction l with
  | nil => intro a x hx; simp at hx
  | cons b t ih =>
    intro a x hx
    rcases List.mem_cons.mp hx with rfl | hx
    · exact le_trans (foldl_min_le_init t (min a x)) (min_le_right a x)
    · exact ih (min a b) x hx

theorem le_foldl_max_init {α : Type} [LinearOrder α] :
    ∀ (l : List α) (a : α), a ≤ l.foldl max a := by
  intro l
  induction l with
  | nil => intro a; exact le_rfl
  | cons b t ih =>
    intro a
    exact le_trans (le_max_left a b) (ih (max a b))

theorem le_foldl_max_mem {α : Type} [LinearOrder α] :
    ∀ (l : List α) (a x : α), x ∈ l → x ≤ l.foldl max a := by
  intro l
  induction l with
  | nil => intro a x hx; simp at hx
  | cons b t ih =>
    intro a x hx
    rcases List.mem_cons.mp hx with rfl | hx
    · exact le_trans (le_max_right a x) (le_foldl_max_init t (max a x))
    · exact ih (max a b) x hx

theorem minX_le (pts : List Pt) (p : Pt) (hp : p ∈ pts) : minX pts ≤ p.1 := by
  cases pts with
  | nil => simp at hp
  | cons q rest =>
    simp only [minX]
    rw [show (fun (m : ℚ) (q : Pt) => min m q.1) = fun m x => min m (Prod.fst x) from rfl,
      ← List.foldl_map Prod.fst (fun m x => min m x)]
    rcases List.mem_cons.mp hp with rfl | hmem
    · exact foldl_min_le_init _ p.1
    · exact foldl_min_le_mem _ q.1 p.1 (List.mem_map_of_mem _ hmem)

theorem le_maxX (pts : List Pt) (p : Pt) (hp : p ∈ pts) : p.1 ≤ maxX pts := by
  cases pts with
  | nil => simp at hp
  | cons q rest =>
    simp only [maxX]
    rw [show (fun (m : ℚ) (q : Pt) => max m q.1) = fun m x => max m (Prod.fst x) from rfl,
      ← List.foldl_map Prod.fst (fun m x => max m x)]
    rcases List.mem_cons.mp hp with rfl | hmem
    · exact le_foldl_max_init _ p.1
    · exact le_foldl_max_mem _ q.1 p.1 (List.mem_map_of_mem _ hmem)

theorem minY_le (pts : List Pt) (p : Pt) (hp : p ∈ pts) : minY pts ≤ p.2.1 := by
  cases pts with
  | nil => simp at hp
  | cons q rest =>
    simp only [minY]
    rw [← List.foldl_map (fun (x : Pt) => x.2.1) (fun m x => min m x)]
    rcases List.mem_cons.mp hp with rfl | hmem
    · exact foldl_min_le_init _ p.2.1
    · exact foldl_min_le_mem _ q.2.1 p.2.1 (List.mem_map_of_mem _ hmem)

theorem le_maxY (pts : List Pt) (p : Pt) (hp : p ∈ pts) : p.2.1 ≤ maxY pts := by
  cases pts with
  | nil => simp at hp
  | cons q rest =>
    simp only [maxY]
    rw [← List.foldl_map (fun (x : Pt) => x.2.1) (fun m x => max m x)]
    rcases List.mem_cons.mp hp with rfl | hmem
    · exact le_foldl_max_init _ p.2.1
    · exact le_foldl_max_mem _ q.2.1 p.2.1 (List.mem_map_of_mem _ hmem)

theorem countP_flatMap {α β : Type} (l : List α) (f : α → List β) (q : β → Bool) :
    (l.flatMap f).countP q = (l.map fun x => (f x).countP q).sum := by
  induction l with
  | nil => rfl
  | cons a t ih =>
    rw [List.flatMap_cons, List.countP_append, List.map_cons, List.sum_cons, ih]

theorem countP_filterMap {α β : Type} (l : List α) (f : α → Option β) (q : β → Bool) :
    (l.filterMap f).countP q = l.countP fun x => ((f x).map q).getD false := by
  induction l with
  | nil => rfl
  | cons a t ih =>
    cases hfa : f a with
    | none =>
      rw [List.filterMap_cons_none hfa, List.countP_cons, hfa, ih]
      simp
    | some b =>
      rw [List.filterMap_cons_some hfa, List.countP_cons, List.countP_cons, hfa, ih]
      rfl

theorem sum_map_ite_countP {α : Type} (l : List α) (q : α → Bool) :
    (l.map fun x => if q x = true then 1 else 0).sum = l.countP q := by
  induction l with
  | nil => rfl
  | cons a t ih =>
    rw [List.map_cons, List.sum_cons, List.countP_cons, ih]
    omega

theorem countP_range_eq_single (k0 : ℕ) :
    ∀ N : ℕ, k0 < N → (List.range N).countP (fun k => k == k0) = 1 := by
  intro N
  induction N with
  | zero => intro h; omega
  | succ n ih =>
    intro h
    rw [List.range_succ, List.countP_append]
    rcases Nat.lt_or_ge k0 n with hlt | hge
    · rw [ih hlt]
      have hne : ¬(n = k0) := by omega
      simp [List.countP_cons, hne]
    · have hk : k0 = n := by omega
      subst hk
      have h0 : (List.range k0).countP (fun k => k == k0) = 0 := by
        rw [List.countP_eq_zero]
        intro a ha
        have : a < k0 := List.mem_range.mp ha
        simp only [beq_iff_eq]
        omega
      rw [h0]
      simp [List.countP_cons]

theorem countP_tileStarts_interval (mn mx t v : ℚ) (ht : 0 < t)
    (hlo : mn ≤ v) (hhi : v < mx) :
    (tileStarts mn mx t).countP
      (fun s => decide (s ≤ v) && decide (v < s + t)) = 1 := by
  unfold tileStarts
  rw [List.countP_map (fun s => decide (s ≤ v) && decide (v < s + t))
    (fun k : ℕ => mn + (k : ℚ) * t) (List.range (⌈(mx - mn) / t⌉).toNat)]
  have hr0 : (0 : ℚ) ≤ (v - mn) / t := div_nonneg (by linarith) ht.le
  have hfl0 : 0 ≤ ⌊(v - mn) / t⌋ := Int.floor_nonneg.mpr hr0
  have hcast : ((⌊(v - mn) / t⌋.toNat : ℚ)) = ((⌊(v - mn) / t⌋ : ℤ) : ℚ) := by
    rw [← Int.cast_natCast, Int.toNat_of_nonneg hfl0]
  have hA : ∀ k : ℕ, (mn + (k : ℚ) * t ≤ v ∧ v < mn + (k : ℚ) * t + t) ↔
      ⌊(v - mn) / t⌋ = (k : ℤ) := by
    intro k
    rw [Int.floor_eq_iff]
    push_cast
    have hexp : ((k : ℚ) + 1) * t = (k : ℚ) * t + t := by ring
    constructor
    · rintro ⟨h1, h2⟩
      constructor
      · rw [le_div_iff₀ ht]; linarith
      · rw [div_lt_iff₀ ht, hexp]; linarith
    · rintro ⟨h1, h2⟩
      rw [le_div_iff₀ ht] at h1
      rw [div_lt_iff₀ ht, hexp] at h2
      constructor <;> linarith
  have hfloor_le : mn + (⌊(v - mn) / t⌋.toNat : ℚ) * t ≤ v := by
    have hfl := Int.floor_le ((v - mn) / t)
    rw [← hcast, le_div_iff₀ ht] at hfl
    linarith
  have hmemN : ⌊(v - mn) / t⌋.toNat < (⌈(mx - mn) / t⌉).toNat := by
    rw [Int.lt_toNat, Int.toNat_of_nonneg hfl0, Int.lt_ceil, ← hcast, lt_div_iff₀ ht]
    linarith
  have hcongr : (List.range (⌈(mx - mn) / t⌉).toNat).countP
      ((fun s => decide (s ≤ v) && decide (v < s + t)) ∘ fun k : ℕ => mn + (k : ℚ) * t) =
      (List.range (⌈(mx - mn) / t⌉).toNat).countP
        (fun k => k == ⌊(v - mn) / t⌋.toNat) := by
    apply List.countP_congr
    intro k _
    simp only [Function.comp, Bool.and_eq_true, decide_eq_true_eq, beq_iff_eq]
    rw [show (mn + (k : ℚ) * t ≤ v ∧ v < mn + (k : ℚ) * t + t) ↔
      ⌊(v - mn) / t⌋ = (k : ℤ) from hA k]
    omega
  rw [hcongr]
  exact countP_range_eq_single _ _ hmemN

theorem generateTiles_countP (pts : List Pt) (t : ℚ) (p : Pt) (hp : p ∈ pts) :
    (generateTiles pts t).countP (fun tile => decide (p ∈ tile.points)) =
      ((tileStarts (minX pts) (maxX pts) t).map fun x =>
        (tileStarts (minY pts) (maxY pts) t).countP fun y => inTile x y t p).sum := by
  unfold generateTiles
  rw [countP_flatMap]
  apply congrArg List.sum
  apply List.map_congr_left
  intro x _
  rw [countP_filterMap]
  apply List.countP_congr
  intro y _
  by_cases hlen : 0 < (pts.filter (inTile x y t)).length
  · rw [if_pos hlen]
    simp only [Option.map_some', Option.getD_some, decide_eq_true_eq, List.mem_filter]
    exact ⟨fun h => h.2, fun h => ⟨hp, h⟩⟩
  · rw [if_neg hlen]
    simp only [Option.map_none', Option.getD_none]
    constructor
    · intro hF; simp at hF
    · intro hmask
      exact absurd (List.length_pos_of_mem (List.mem_filter.mpr ⟨hp, hmask⟩)) hlen

/-- Claim C2, amended: a point strictly inside the bounding box on both
ground axes lies in exactly one generated tile (points on the maximal x
or y boundary can be lost, see the counterexample). -/
theorem tiles_unique_for_interior (pts : List Pt) (t : ℚ) (p : Pt)
    (ht : 0 < t) (hp : p ∈ pts) (hx : p.1 < maxX pts) (hy : p.2.1 < maxY pts) :
    (generateTiles pts t).countP (fun tile => decide (p ∈ tile.points)) = 1 := by
  rw [generateTiles_countP pts t p hp]
  have hinner : ∀ x ∈ tileStarts (minX pts) (maxX pts) t,
      ((tileStarts (minY pts) (maxY pts) t).countP fun y => inTile x y t p) =
        (fun x : ℚ => if (decide (x ≤ p.1) && decide (p.1 < x + t)) = true
          then 1 else 0) x := by
    intro x _
    dsimp only
    by_cases hxc : (decide (x ≤ p.1) && decide (p.1 < x + t)) = true
    · rw [if_pos hxc]
      rw [show ((tileStarts (minY pts) (maxY pts) t).countP fun y => inTile x y t p) =
          (tileStarts (minY pts) (maxY pts) t).countP
            (fun u => decide (u ≤ p.2.1) && decide (p.2.1 < u + t)) from
        List.countP_congr ?_]
      · exact countP_tileStarts_interval _ _ _ _ ht (minY_le pts p hp) hy
      · intro u _
        simp only [Bool.and_eq_true, decide_eq_true_eq] at hxc
        simp only [inTile, Bool.and_eq_true, decide_eq_true_eq]
        obtain ⟨h1, h2⟩ := hxc
        constructor
        · rintro ⟨⟨⟨-, -⟩, h3⟩, h4⟩; exact ⟨h3, h4⟩
        · rintro ⟨h3, h4⟩; exact ⟨⟨⟨h1, h2⟩, h3⟩, h4⟩
    · rw [if_neg hxc]
      rw [List.countP_eq_zero]
      intro u _ hc
      apply hxc
      simp only [inTile, Bool.and_eq_true, decide_eq_true_eq] at hc
      simp only [Bool.and_eq_true, decide_eq_true_eq]
      exact ⟨hc.1.1.1, hc.1.1.2⟩
  rw [List.map_congr_left hinner, sum_map_ite_countP]
  exact countP_tileStarts_interval _ _ _ _ ht (minX_le pts p hp) hx

/-- Witness for the amended C2 at a concrete two-point cloud. -/
theorem tiles_unique_for_interior_witness :
    (0 : ℚ) < 10 ∧ ((0 : ℚ), (0 : ℚ), (0 : ℚ)) ∈ ptsTileW ∧
      ((0 : ℚ), (0 : ℚ), (0 : ℚ)).1 < maxX ptsTileW ∧
      ((0 : ℚ), (0 : ℚ), (0 : ℚ)).2.1 < maxY ptsTileW ∧
      (generateTiles ptsTileW 10).countP
        (fun tile => decide (((0 : ℚ), (0 : ℚ), (0 : ℚ)) ∈ tile.points)) = 1 :=
  ⟨by norm_num, by simp [ptsTileW], by norm_num [maxX, ptsTileW],
    by norm_num [maxY, ptsTileW],
    tiles_unique_for_interior ptsTileW 10 ((0 : ℚ), (0 : ℚ), (0 : ℚ))
      (by norm_num) (by simp [ptsTileW]) (by norm_num [maxX, ptsTileW])
      (by norm_num [maxY, ptsTileW])⟩

/-- Counterexample to C2 as stated: with points (0,0,0) and (10,5,0) and
tile size 10 the x extent is an exact multiple of the tile size, the
loop covers only [0,10), and the point on the maximal x boundary belongs
to no generated tile. -/
theorem tiles_lose_max_boundary :
    ((10 : ℚ), (5 : ℚ), (0 : ℚ)) ∈ ptsBoundary ∧ (0 : ℚ) < 10 ∧
      (generateTiles ptsBoundary 10).countP
        (fun tile => decide (((10 : ℚ), (5 : ℚ), (0 : ℚ)) ∈ tile.points)) = 0 := by
  refine ⟨by simp [ptsBoundary], by norm_num, ?_⟩
  have hmnx : minX ptsBoundary = 0 := by norm_num [minX, ptsBoundary]
  have hmxx : maxX ptsBoundary = 10 := by norm_num [maxX, ptsBoundary]
  have hmny : minY ptsBoundary = 0 := by norm_num [minY, ptsBoundary]
  have hmxy : maxY ptsBoundary = 5 := by norm_num [maxY, ptsBoundary]
  unfold generateTiles
  rw [hmnx, hmxx, hmny, hmxy]
  have hxs : tileStarts 0 10 10 = [0] := by
    unfold tileStarts
    norm_num [List.range_succ]
  have hys : tileStarts 0 5 10 = [0] := by
    unfold tileStarts
    have hc : (⌈((5 : ℚ) - 0) / 10⌉) = 1 := by
      rw [Int.ceil_eq_iff]
      norm_num
    rw [hc]
    norm_num [List.range_succ]
  dsimp only
  rw [hxs, hys]
  simp only [List.flatMap_cons, List.flatMap_nil, List.filterMap_cons, List.filterMap_nil,
    List.append_nil]
  norm_num [inTile, ptsBoundary, List.filter, List.countP, List.countP.go]

/-! ## Gap filling (claim C6) -/

theorem getD_eq_getElem {α : Type} (l : List α) (i : ℕ) (d : α) (h : i < l.length) :
    l.getD i d = l[i] := by
  rw [List.getD_eq_getElem?_getD, List.getElem?_eq_getElem h]
  rfl

theorem meanValid_const (vs : List (Option ℚ)) (c : ℚ)
    (hall : ∀ v ∈ vs, v = none ∨ v = some c) (hmem : some c ∈ vs) :
    meanValid vs = some c := by
  unfold meanValid
  have hvc : ∀ x ∈ vs.filterMap id, x = c := by
    intro x hx
    obtain ⟨a, ha, hax⟩ := List.mem_filterMap.mp hx
    rcases hall a ha with rfl | rfl
    · simp at hax
    · simp only [id] at hax
      exact (Option.some_inj.mp hax).symm
  have hne : vs.filterMap id ≠ [] := by
    intro hE
    have hcm : (c : ℚ) ∈ vs.filterMap id := List.mem_filterMap.mpr ⟨some c, hmem, rfl⟩
    rw [hE] at hcm
    simp at hcm
  have hn0 : ((vs.filterMap id).length : ℚ) ≠ 0 :=
    Nat.cast_ne_zero.mpr fun h => hne (List.length_eq_zero.mp h)
  rw [if_neg fun h => hne (List.length_eq_zero.mp h)]
  have hrep := List.eq_replicate_of_mem hvc
  congr 1
  calc (vs.filterMap id).sum / ((vs.filterMap id).length : ℚ)
      = (((vs.filterMap id).length : ℚ) * c) / ((vs.filterMap id).length : ℚ) := by
        conv_lhs => rw [hrep]
        rw [List.sum_replicate, List.length_replicate, nsmul_eq_mul]
    _ = c := mul_div_cancel_left₀ c hn0

theorem cellGet_none_or_const (g : List (List (Option ℚ))) (c : ℚ)
    (hconst : ∀ row ∈ g, ∀ v ∈ row, v = some c) (r cc : ℤ) :
    cellGet g r cc = none ∨ cellGet g r cc = some c := by
  unfold cellGet
  split_ifs with h
  · rcases Nat.lt_or_ge r.toNat g.length with hr | hr
    · rcases Nat.lt_or_ge cc.toNat (g.getD r.toNat []).length with hc2 | hc2
      · exact Or.inr (hconst _ (getD_mem _ _ _ hr) _ (getD_mem _ _ _ hc2))
      · left
        rw [List.getD_eq_getElem?_getD, List.getElem?_eq_none hc2]
        rfl
    · left
      have hrow : g.getD r.toNat [] = [] := by
        rw [List.getD_eq_getElem?_getD, List.getElem?_eq_none hr]
        rfl
      rw [hrow]
      rfl
  · exact Or.inl rfl

theorem window3_mean_const (g : List (List (Option ℚ))) (c : ℚ)
    (hconst : ∀ row ∈ g, ∀ v ∈ row, v = some c) (j i : ℕ)
    (hj : j < g.length) (hi : i < (g.getD j []).length) :
    meanValid (window3 g j i) = some c := by
  have hc0 : cellGet g ((j : ℤ) + 0) ((i : ℤ) + 0) = some c := by
    unfold cellGet
    rw [if_pos ⟨by omega, by omega⟩]
    simp only [add_zero, Int.toNat_natCast]
    exact hconst _ (getD_mem _ _ _ hj) _ (getD_mem _ _ _ hi)
  apply meanValid_const
  · intro v hv
    unfold window3 at hv
    simp only [List.mem_flatMap, List.mem_map] at hv
    obtain ⟨dj, -, di, -, rfl⟩ := hv
    exact cellGet_none_or_const g c hconst _ _
  · rw [← hc0]
    unfold window3
    refine List.mem_flatMap.mpr ⟨0, by norm_num, ?_⟩
    exact List.mem_map.mpr ⟨0, by norm_num, rfl⟩

/-- Claim C6, amended: the filter recomputes every cell as the mean of
its 3x3 neighborhood, so resolved cells are preserved exactly when that
mean equals their value; in particular a grid whose cells all hold the
same resolved value is unchanged by gap filling. -/
theorem fillNan_preserves_constant_grids (g : List (List (Option ℚ))) (c : ℚ)
    (hconst : ∀ row ∈ g, ∀ v ∈ row, v = some c) :
    fillNanGrid g = g := by
  unfold fillNanGrid
  dsimp only
  have hfilled : (List.range g.length).map (fun j => (List.range (g.getD j []).length).map
      fun i => meanValid (window3 g j i)) =
      (List.range g.length).map (fun j => (List.range (g.getD j []).length).map
      fun i => (some c : Option ℚ)) := by
    apply List.map_congr_left
    intro j hj
    apply List.map_congr_left
    intro i hi
    exact window3_mean_const g c hconst j i (List.mem_range.mp hj) (List.mem_range.mp hi)
  rw [hfilled]
  have hg : (List.range g.length).map (fun j => (List.range (g.getD j []).length).map
      fun i => (some c : Option ℚ)) = g := by
    apply List.ext_getElem
    · simp
    · intro j h1 h2
      rw [List.getElem_map, List.getElem_range]
      apply List.ext_getElem
      · simp only [List.length_map, List.length_range]
        rw [getD_eq_getElem g _ _ h2]
      · intro i hi1 hi2
        rw [List.getElem_map]
        exact (hconst _ (List.getElem_mem h2) _ (List.getElem_mem hi2)).symm
  rw [List.map_map]
  calc (List.range g.length).map
        ((fun row => row.map fun v => match v with
          | some x => some x
          | none =>
            if ((((List.range g.length).map fun j =>
                (List.range (g.getD j []).length).map fun i =>
                  (some c : Option ℚ)).flatMap id).filterMap id).length = 0 then none
            else some (((((List.range g.length).map fun j =>
                (List.range (g.getD j []).length).map fun i =>
                  (some c : Option ℚ)).flatMap id).filterMap id).sum /
              ((((List.range g.length).map fun j =>
                (List.range (g.getD j []).length).map fun i =>
                  (some c : Option ℚ)).flatMap id).filterMap id).length)) ∘
          fun j => (List.range (g.getD j []).length).map fun i => (some c : Option ℚ))
      = (List.range g.length).map (fun j => (List.range (g.getD j []).length).map
          fun i => (some c : Option ℚ)) := by
        apply List.map_congr_left
        intro j _
        dsimp only [Function.comp]
        rw [List.map_map]
        apply List.map_congr_left
        intro i _
        rfl
    _ = g := hg

/-- Witness for the amended C6 on a concrete constant grid. -/
theorem fillNan_preserves_constant_grids_witness :
    (∀ row ∈ [[some (5 : ℚ), some 5]], ∀ v ∈ row, v = some 5) ∧
      fillNanGrid [[some (5 : ℚ), some 5]] = [[some 5, some 5]] :=
  ⟨by decide, fillNan_preserves_constant_grids [[some 5, some 5]] 5 (by decide)⟩

/-- Counterexample to C6 as stated: in the grid `[[0, 2]]` no cell is a
sentinel, yet gap filling replaces both resolved values by the
neighborhood mean 1. -/
theorem fillNan_changes_resolved_cell :
    ((gRow2.getD 0 []).getD 0 none) = some 0 ∧
      fillNanGrid gRow2 = [[some 1, some 1]] ∧ (0 : ℚ) ≠ 1 := by
  refine ⟨rfl, ?_, by norm_num⟩
  have hw0 : window3 [[some (0 : ℚ), some 2]] 0 0 =
      [none, none, none, none, some 0, some 2, none, none, none] := by
    norm_num [window3, cellGet, Int.toNat_ofNat]
  have hw1 : window3 [[some (0 : ℚ), some 2]] 0 1 =
      [none, none, none, some 0, some 2, none, none, none, none] := by
    norm_num [window3, cellGet, Int.toNat_ofNat]
    decide
  have hm0 : meanValid [none, none, none, none, some 0, some 2, none, none, none] =
      some 1 := by
    norm_num [meanValid, List.filterMap_cons, id]
  have hm1 : meanValid [none, none, none, some 0, some 2, none, none, none, none] =
      some 1 := by
    norm_num [meanValid, List.filterMap_cons, id]
  unfold fillNanGrid
  norm_num [gRow2, List.range_succ, hw0, hw1, hm0, hm1]

/-! ## Building segmentation scenario (claim C3) -/

theorem heightGrid_scenario : heightGrid dsm3.grid dtm3.grid =
    [[some 0, some 0, some 0], [some 0, some 5, some 0], [some 0, some 0, some 0]] := by
  norm_num [heightGrid, dsm3, dtm3]

theorem mask_scenario :
    buildingMask [[some (0 : ℚ), some 0, some 0], [some 0, some 5, some 0],
      [some 0, some 0, some 0]] =
    [[false, false, false], [false, true, false], [false, false, false]] := by
  norm_num [buildingMask]

theorem comps_scenario :
    components (trueCells [[false, false, false], [false, true, false],
      [false, false, false]]) = [[(1, 1)]] := by
  decide

theorem buildings_scenario : calculateBuildingHeights dtm3 dsm3 = [] := by
  unfold calculateBuildingHeights
  rw [heightGrid_scenario]
  dsimp only
  rw [mask_scenario, comps_scenario]
  decide

/-- Counterexample to C3 as stated: the scenario does not produce exactly
one building candidate — the result list is empty. -/
theorem building_scenario_not_one :
    (calculateBuildingHeights dtm3 dsm3).length ≠ 1 := by
  rw [buildings_scenario]
  simp

/-- Claim C3, amended: on the 3x3 scenario the mask has exactly one
4-connected component, the single cell (1,1) of height 5, but its cell
count 1 is below the hard-coded minimum of 10 cells, so
`calculate_building_heights` discards it and returns no candidates. -/
theorem building_scenario_amended :
    calculateBuildingHeights dtm3 dsm3 = [] ∧
      (components (trueCells (buildingMask (heightGrid dsm3.grid dtm3.grid)))).length = 1 ∧
      (components (trueCells (buildingMask (heightGrid dsm3.grid dtm3.grid)))).getD 0 []
        = [(1, 1)] ∧
      ((heightGrid dsm3.grid dtm3.grid).getD 1 []).getD 1 none = some 5 := by
  refine ⟨buildings_scenario, ?_, ?_, ?_⟩
  · rw [heightGrid_scenario, mask_scenario, comps_scenario]
    rfl
  · rw [heightGrid_scenario, mask_scenario, comps_scenario]
    rfl
  · rw [heightGrid_scenario]
    rfl

/-! ## DTM and DSM grid alignment (claim C10) -/

/-- Claim C10, amended: the DTM grid shape and bounds are derived from
the ground-point bounding box and the DSM ones from the full bounding
box; they coincide whenever those boxes coincide (for instance when all
points are ground-classified), and otherwise can differ, making the
elementwise DSM − DTM subtraction ill-defined. -/
theorem dtm_dsm_shapes_align (proc : Proc) (res : ℚ)
    (h : groundBox proc = fullBox proc) :
    (generateDtm proc res).shape = (generateDsm proc res).shape ∧
      (generateDtm proc res).bounds = (generateDsm proc res).bounds := by
  unfold groundBox fullBox at h
  have h4 := h
  rw [Prod.ext_iff, Prod.ext_iff, Prod.ext_iff] at h4
  dsimp only at h4
  obtain ⟨h1, h2, h3, h4⟩ := h4
  unfold generateDtm generateDsm
  dsimp only
  rw [h1, h2, h3, h4]
  exact ⟨rfl, rfl⟩

/-- Witness for the amended C10 on an all-ground two-point cloud. -/
theorem dtm_dsm_shapes_align_witness :
    groundBox procGround = fullBox procGround ∧
      (generateDtm procGround 1).shape = (generateDsm procGround 1).shape ∧
      (generateDtm procGround 1).bounds = (generateDsm procGround 1).bounds :=
  ⟨by decide, (dtm_dsm_shapes_align procGround 1 (by decide)).1,
    (dtm_dsm_shapes_align procGround 1 (by decide)).2⟩

/-- Counterexample to C10 as stated: with one ground point (0,0,0) and
one non-ground point (10,10,5), resolution 1, the DTM grid is 1x1 over
the ground box while the DSM grid is 11x11 over the full box. -/
theorem dtm_dsm_shapes_differ :
    (generateDtm procSplit 1).shape = (1, 1) ∧
      (generateDsm procSplit 1).shape = (11, 11) ∧
      (generateDtm procSplit 1).shape ≠ (generateDsm procSplit 1).shape := by
  have hg : extractGroundPoints procSplit = [((0 : ℚ), 0, 0)] := by decide
  have hdtm : (generateDtm procSplit 1).shape = (1, 1) := by
    unfold generateDtm
    dsimp only
    rw [hg]
    norm_num [minX, maxX, minY, maxY, ratTrunc]
  have hdsm : (generateDsm procSplit 1).shape = (11, 11) := by
    unfold generateDsm
    dsimp only
    norm_num [minX, maxX, minY, maxY, ratTrunc, procSplit]
    decide
  refine ⟨hdtm, hdsm, ?_⟩
  rw [hdtm, hdsm]
  decide

/-! ## Random sampling endpoint (claims C8 and C5) -/

theorem choiceNoReplace_go_length :
    ∀ (k : ℕ) (s pool : List ℕ), k ≤ pool.length →
      (choiceNoReplace.go s pool k).length = k := by
  intro k
  induction k with
  | zero => intro s pool _; rfl
  | succ m ih =>
    intro s pool h
    have hne : ¬(pool.isEmpty = true) := by
      intro hE
      rw [List.isEmpty_iff.mp hE] at h
      simp at h
    unfold choiceNoReplace.go
    rw [if_neg hne]
    have hpos : 0 < pool.length := by omega
    have hidx : s.headD 0 % pool.length < pool.length := Nat.mod_lt _ hpos
    have hlen2 : (pool.eraseIdx (s.headD 0 % pool.length)).length = pool.length - 1 := by
      rw [List.length_eraseIdx, if_pos hidx]
    rw [List.length_cons, ih s.tail (pool.eraseIdx (s.headD 0 % pool.length)) (by omega)]

theorem choiceNoReplace_length (stream : List ℕ) (n k : ℕ) (h : k ≤ n) :
    (choiceNoReplace stream n k).length = k := by
  unfold choiceNoReplace
  rw [choiceNoReplace_go_length k stream (List.range n) (by simpa using h)]

/-- Claim C8, amended: an oversize sample request does not fail — the
requested size is silently clamped by
`sample_size = min(sample_size, 50000, len(points))` and that many points
are returned. -/
theorem sample_size_clamped (stream : List ℕ) (pts : List Pt) (k : ℕ) :
    (getLidarSampleM stream pts k).point_count = min (min k 50000) pts.length ∧
      (getLidarSampleM stream pts k).xs.length = min (min k 50000) pts.length ∧
      (getLidarSampleM stream pts k).zs.length = min (min k 50000) pts.length := by
  refine ⟨rfl, ?_, ?_⟩ <;>
  · unfold getLidarSampleM
    dsimp only
    rw [List.length_map, choiceNoReplace_length stream pts.length _ (min_le_right _ _)]

/-- Witness for the amended C8 (no hypothesis beyond data, applied at a
concrete oversize request). -/
theorem sample_size_clamped_witness :
    (getLidarSampleM [0] pts2 10).point_count = min (min 10 50000) pts2.length ∧
      (getLidarSampleM [0] pts2 10).xs.length = min (min 10 50000) pts2.length ∧
      (getLidarSampleM [0] pts2 10).zs.length = min (min 10 50000) pts2.length :=
  sample_size_clamped [0] pts2 10

/-- Counterexample to C8 as stated: requesting 10 points from a 2-point
cloud raises no typed error — the call returns 2 points. -/
theorem oversize_request_returns_fewer :
    (getLidarSampleM [0] pts2 10).point_count = 2 ∧
      (getLidarSampleM [0] pts2 10).xs.length = 2 ∧ (2 : ℕ) ≠ 10 := by
  decide

theorem choiceNoReplace_go_stream :
    ∀ (k : ℕ) (s1 s2 pool : List ℕ), s1.take k = s2.take k →
      choiceNoReplace.go s1 pool k = choiceNoReplace.go s2 pool k := by
  intro k
  induction k with
  | zero => intro s1 s2 pool _; rfl
  | succ m ih =>
    intro s1 s2 pool h
    cases s1 with
    | nil =>
      cases s2 with
      | nil => rfl
      | cons b t2 => simp [List.take_succ_cons] at h
    | cons a t1 =>
      cases s2 with
      | nil => simp [List.take_succ_cons] at h
      | cons b t2 =>
        rw [List.take_succ_cons, List.take_succ_cons] at h
        obtain ⟨rfl, htail⟩ := List.cons.injEq .. |>.mp h |>.imp id id
        unfold choiceNoReplace.go
        simp only [List.headD_cons, List.tail_cons]
        rw [ih t1 t2 _ htail]

/-- Claim C5, amended: no sampling operation accepts a seed — the
output is a function of the explicit inputs together with the first
(clamped sample size) draws of the process-global numpy random stream;
two runs agree exactly when that ambient stream prefix agrees, so
byte-for-byte reproducibility holds only at fixed global RNG state. -/
theorem sampling_reproducible_at_fixed_rng_state (s1 s2 : List ℕ) (pts : List Pt)
    (k : ℕ)
    (h : s1.take (min (min k 50000) pts.length) =
      s2.take (min (min k 50000) pts.length)) :
    getLidarSampleM s1 pts k = getLidarSampleM s2 pts k := by
  unfold getLidarSampleM choiceNoReplace
  dsimp only
  rw [choiceNoReplace_go_stream _ s1 s2 _ h]

/-- Witness for the amended C5 at concrete streams agreeing on the first
draw. -/
theorem sampling_reproducible_witness :
    ([5, 7] : List ℕ).take (min (min 1 50000) pts2.length) =
        ([5, 9] : List ℕ).take (min (min 1 50000) pts2.length) ∧
      getLidarSampleM [5, 7] pts2 1 = getLidarSampleM [5, 9] pts2 1 :=
  ⟨by decide, sampling_reproducible_at_fixed_rng_state [5, 7] [5, 9] pts2 1 (by decide)⟩

/-- Counterexample to C5 as stated: the sample endpoint takes no seed,
and two runs with identical API inputs but different ambient global RNG
states return different points. -/
theorem sampling_not_input_determined :
    getLidarSampleM [0] pts2 1 ≠ getLidarSampleM [1] pts2 1 := by
  decide

/-! ## Viewshed (claim C7)

The Bresenham walk keeps the remaining distances `rx = sx*(x1-x)` and
`ry = sy*(y1-y)` inside `[0,dx]` and `[0,dy]`: once an axis has reached
its target coordinate, the error value forbids further steps on it, so
all visited cells stay in the rectangle spanned by the endpoints. -/

theorem bresKeyA (dx dy rx ry err : ℤ) (hdx : 0 ≤ dx) (hdy : 0 ≤ dy)
    (hrx : rx = 0) (hry : 1 ≤ ry)
    (herr : err = dx * (1 + dy - ry) - dy * (1 + dx - rx)) : 2 * err ≤ -dy := by
  nlinarith [mul_nonneg hdx (by linarith : (0 : ℤ) ≤ ry - 1)]

theorem bresKeyB (dx dy rx ry err : ℤ) (hdx : 0 ≤ dx) (hdy : 0 ≤ dy)
    (hry : ry = 0) (hrx : 1 ≤ rx)
    (herr : err = dx * (1 + dy - ry) - dy * (1 + dx - rx)) : dx ≤ 2 * err := by
  nlinarith [mul_nonneg hdy (by linarith : (0 : ℤ) ≤ rx - 1)]

theorem bres_step (x1 y1 dx dy sx sy x y err : ℤ)
    (hI : BresInv x1 y1 dx dy sx sy x y err) (hne : ¬(x = x1 ∧ y = y1)) :
    BresInv x1 y1 dx dy sx sy
      (if -dy < 2 * err then x + sx else x)
      (if 2 * err < dx then y + sy else y)
      (if 2 * err < dx then (if -dy < 2 * err then err - dy else err) + dx
        else (if -dy < 2 * err then err - dy else err)) ∧
    0 ≤ sx * ((if -dy < 2 * err then x + sx else x) - x) ∧
    0 ≤ sy * ((if 2 * err < dx then y + sy else y) - y) := by
  obtain ⟨hsx, hsy, hdx, hdy, hrx0, hrxd, hry0, hryd, herr⟩ := hI
  have hsx2 : sx * sx = 1 := by rcases hsx with rfl | rfl <;> norm_num
  have hsy2 : sy * sy = 1 := by rcases hsy with rfl | rfl <;> norm_num
  have hxeq : sx * (x1 - x) = 0 → x = x1 := by
    intro h0
    rcases mul_eq_zero.mp h0 with h | h
    · rcases hsx with rfl | rfl <;> simp at h
    · omega
  have hyeq : sy * (y1 - y) = 0 → y = y1 := by
    intro h0
    rcases mul_eq_zero.mp h0 with h | h
    · rcases hsy with rfl | rfl <;> simp at h
    · omega
  have hrxstep : sx * (x1 - (x + sx)) = sx * (x1 - x) - 1 := by
    have h : sx * (x1 - (x + sx)) = sx * (x1 - x) - sx * sx := by ring
    rw [h, hsx2]
  have hrystep : sy * (y1 - (y + sy)) = sy * (y1 - y) - 1 := by
    have h : sy * (y1 - (y + sy)) = sy * (y1 - y) - sy * sy := by ring
    rw [h, hsy2]
  -- when the x axis is exhausted and the walk is not at the target,
  -- the error test forbids an x step, and dually for y
  have hxneed : -dy < 2 * err → 1 ≤ sx * (x1 - x) := by
    intro hxs
    rcases (by omega : sx * (x1 - x) = 0 ∨ 1 ≤ sx * (x1 - x)) with h0 | h1
    · exfalso
      have hx := hxeq h0
      have hyne : ¬(y = y1) := fun hy => hne ⟨hx, hy⟩
      have hry1 : 1 ≤ sy * (y1 - y) := by
        rcases (by omega : sy * (y1 - y) = 0 ∨ 1 ≤ sy * (y1 - y)) with hz | ho
        · exact absurd (hyeq hz) hyne
        · exact ho
      have := bresKeyA dx dy (sx * (x1 - x)) (sy * (y1 - y)) err hdx hdy h0 hry1 herr
      omega
    · exact h1
  have hyneed : 2 * err < dx → 1 ≤ sy * (y1 - y) := by
    intro hys
    rcases (by omega : sy * (y1 - y) = 0 ∨ 1 ≤ sy * (y1 - y)) with h0 | h1
    · exfalso
      have hy := hyeq h0
      have hxne : ¬(x = x1) := fun hx => hne ⟨hx, hy⟩
      have hrx1 : 1 ≤ sx * (x1 - x) := by
        rcases (by omega : sx * (x1 - x) = 0 ∨ 1 ≤ sx * (x1 - x)) with hz | ho
        · exact absurd (hxeq hz) hxne
        · exact ho
      have := bresKeyB dx dy (sx * (x1 - x)) (sy * (y1 - y)) err hdx hdy h0 hrx1 herr
      omega
    · exact h1
  by_cases hxs : -dy < 2 * err <;> by_cases hys : 2 * err < dx
  · -- both axes step
    have hrx1 := hxneed hxs
    have hry1 := hyneed hys
    simp only [if_pos hxs, if_pos hys]
    refine ⟨⟨hsx, hsy, hdx, hdy, ?_, ?_, ?_, ?_, ?_⟩, ?_, ?_⟩
    · rw [hrxstep]; omega
    · rw [hrxstep]; omega
    · rw [hrystep]; omega
    · rw [hrystep]; omega
    · rw [hrxstep, hrystep]; linear_combination herr
    · rw [show sx * (x + sx - x) = sx * sx by ring, hsx2]; omega
    · rw [show sy * (y + sy - y) = sy * sy by ring, hsy2]; omega
  · -- only x steps
    have hrx1 := hxneed hxs
    simp only [if_pos hxs, if_neg hys]
    refine ⟨⟨hsx, hsy, hdx, hdy, ?_, ?_, hry0, hryd, ?_⟩, ?_, ?_⟩
    · rw [hrxstep]; omega
    · rw [hrxstep]; omega
    · rw [hrxstep]; linear_combination herr
    · rw [show sx * (x + sx - x) = sx * sx by ring, hsx2]; omega
    · simp
  · -- only y steps
    have hry1 := hyneed hys
    simp only [if_neg hxs, if_pos hys]
    refine ⟨⟨hsx, hsy, hdx, hdy, hrx0, hrxd, ?_, ?_, ?_⟩, ?_, ?_⟩
    · rw [hrystep]; omega
    · rw [hrystep]; omega
    · rw [hrystep]; linear_combination herr
    · simp
    · rw [show sy * (y + sy - y) = sy * sy by ring, hsy2]; omega
  · -- no step is impossible away from the target
    exfalso
    have hdx0 : dx = 0 ∧ dy = 0 := by omega
    have hx := hxeq (by omega)
    have hy := hyeq (by omega)
    exact hne ⟨hx, hy⟩

theorem bres_mem_rect (fuel : ℕ) :
    ∀ (x1 y1 dx dy sx sy x y err : ℤ),
      BresInv x1 y1 dx dy sx sy x y err →
      ∀ q ∈ bresAux x1 y1 dx dy sx sy fuel x y err,
        0 ≤ sx * (q.1 - x) ∧ 0 ≤ sx * (x1 - q.1) ∧
          0 ≤ sy * (q.2 - y) ∧ 0 ≤ sy * (y1 - q.2) := by
  induction fuel with
  | zero => intro x1 y1 dx dy sx sy x y err _ q hq; simp [bresAux] at hq
  | succ n ih =>
    intro x1 y1 dx dy sx sy x y err hI q hq
    have hrx0 := hI.2.2.2.2.1
    have hry0 := hI.2.2.2.2.2.2.1
    rw [bresAux] at hq
    rcases List.mem_cons.mp hq with rfl | hq'
    · exact ⟨by simp, hrx0, by simp, hry0⟩
    · by_cases hT : x = x1 ∧ y = y1
      · rw [if_pos hT] at hq'; simp at hq'
      · rw [if_neg hT] at hq'
        obtain ⟨hI', hxmono, hymono⟩ := bres_step x1 y1 dx dy sx sy x y err hI hT
        have hrec := ih x1 y1 dx dy sx sy _ _ _ hI' q hq'
        refine ⟨?_, hrec.2.1, ?_, hrec.2.2.2⟩
        · have h1 := hrec.1
          have hsplit : sx * (q.1 - x) =
              sx * (q.1 - (if -dy < 2 * err then x + sx else x)) +
                sx * ((if -dy < 2 * err then x + sx else x) - x) := by ring
          rw [hsplit]; linarith
        · have h1 := hrec.2.2.1
          have hsplit : sy * (q.2 - y) =
              sy * (q.2 - (if 2 * err < dx then y + sy else y)) +
                sy * ((if 2 * err < dx then y + sy else y) - y) := by ring
          rw [hsplit]; linarith

theorem bresenhamLine_inv_init (x0 y0 x1 y1 : ℤ) :
    BresInv x1 y1 |x1 - x0| |y1 - y0| (if x0 < x1 then 1 else -1)
      (if y0 < y1 then 1 else -1) x0 y0 (|x1 - x0| - |y1 - y0|) := by
  have hx : (if x0 < x1 then (1 : ℤ) else -1) * (x1 - x0) = |x1 - x0| := by
    by_cases h : x0 < x1
    · rw [if_pos h, one_mul, abs_of_nonneg (by omega)]
    · rw [if_neg h, abs_of_nonpos (by omega)]; ring
  have hy : (if y0 < y1 then (1 : ℤ) else -1) * (y1 - y0) = |y1 - y0| := by
    by_cases h : y0 < y1
    · rw [if_pos h, one_mul, abs_of_nonneg (by omega)]
    · rw [if_neg h, abs_of_nonpos (by omega)]; ring
  refine ⟨by by_cases h : x0 < x1 <;> simp [h], by by_cases h : y0 < y1 <;> simp [h],
    abs_nonneg _, abs_nonneg _, ?_, ?_, ?_, ?_, ?_⟩
  · rw [hx]; exact abs_nonneg _
  · rw [hx]
  · rw [hy]; exact abs_nonneg _
  · rw [hy]
  · rw [hx, hy]; ring

theorem bresenhamLine_mem_rect (x0 y0 x1 y1 : ℤ) (q : ℤ × ℤ)
    (hq : q ∈ bresenhamLine x0 y0 x1 y1) :
    min x0 x1 ≤ q.1 ∧ q.1 ≤ max x0 x1 ∧ min y0 y1 ≤ q.2 ∧ q.2 ≤ max y0 y1 := by
  have h := bres_mem_rect ((|x1 - x0| + |y1 - y0| + 1).toNat) x1 y1
    |x1 - x0| |y1 - y0| (if x0 < x1 then 1 else -1) (if y0 < y1 then 1 else -1)
    x0 y0 (|x1 - x0| - |y1 - y0|) (bresenhamLine_inv_init x0 y0 x1 y1) q hq
  obtain ⟨h1, h2, h3, h4⟩ := h
  constructor
  · by_cases hx : x0 < x1
    · rw [if_pos hx] at h1 h2; omega
    · rw [if_neg hx] at h1 h2; omega
  constructor
  · by_cases hx : x0 < x1
    · rw [if_pos hx] at h1 h2; omega
    · rw [if_neg hx] at h1 h2; omega
  constructor
  · by_cases hy : y0 < y1
    · rw [if_pos hy] at h3 h4; omega
    · rw [if_neg hy] at h3 h4; omega
  · by_cases hy : y0 < y1
    · rw [if_pos hy] at h3 h4; omega
    · rw [if_neg hy] at h3 h4; omega

theorem bresenhamLine_length_pos (x0 y0 x1 y1 : ℤ) :
    0 < (bresenhamLine x0 y0 x1 y1).length := by
  have h1 : (0 : ℤ) < |x1 - x0| + |y1 - y0| + 1 := by
    have := abs_nonneg (x1 - x0); have := abs_nonneg (y1 - y0); linarith
  have h2 : 0 < (|x1 - x0| + |y1 - y0| + 1).toNat := by omega
  obtain ⟨m, hm⟩ := Nat.exists_eq_succ_of_ne_zero (Nat.pos_iff_ne_zero.mp h2)
  unfold bresenhamLine
  dsimp only
  rw [hm, bresAux]
  simp

theorem mem_enumFrom_facts {α : Type} :
    ∀ (l : List α) (n : ℕ) (p : ℕ × α), p ∈ List.enumFrom n l →
      n ≤ p.1 ∧ p.1 < n + l.length ∧ p.2 ∈ l := by
  intro l
  induction l with
  | nil => intro n p hp; simp [List.enumFrom] at hp
  | cons a t ih =>
    intro n p hp
    rw [List.enumFrom] at hp
    rcases List.mem_cons.mp hp with rfl | hp
    · exact ⟨le_refl n, by rw [List.length_cons]; omega, by simp⟩
    · obtain ⟨h1, h2, h3⟩ := ih (n + 1) p hp
      exact ⟨by omega, by rw [List.length_cons]; omega, List.mem_cons_of_mem a h3⟩

theorem headD_mem {α : Type} (l : List α) (d : α) (h : l ≠ []) : l.headD d ∈ l := by
  cases l with
  | nil => exact absurd rfl h
  | cons a t => simp

theorem demGet_const (dem : List (List ℚ)) (c : ℚ) (cols : ℕ)
    (hrect : ∀ row ∈ dem, row.length = cols)
    (hconst : ∀ row ∈ dem, ∀ v ∈ row, v = c)
    (r cc : ℤ) (hr0 : 0 ≤ r) (hc0 : 0 ≤ cc)
    (hr : r.toNat < dem.length) (hc : cc.toNat < cols) :
    demGet dem r cc = c := by
  unfold demGet
  rw [if_pos ⟨hr0, hc0⟩]
  rw [getD_eq_getElem dem r.toNat [] hr]
  have hrowmem : dem[r.toNat] ∈ dem := List.getElem_mem hr
  have hlen : dem[r.toNat].length = cols := hrect _ hrowmem
  have hc2 : cc.toNat < dem[r.toNat].length := by omega
  rw [getD_eq_getElem _ cc.toNat 0 hc2]
  exact hconst _ hrowmem _ (List.getElem_mem hc2)

theorem lineOfSight_const (dem : List (List ℚ)) (c : ℚ) (cols : ℕ)
    (hrect : ∀ row ∈ dem, row.length = cols)
    (hconst : ∀ row ∈ dem, ∀ v ∈ row, v = c)
    (obsR obsC i j : ℕ) (oh th : ℚ)
    (hobR : obsR < dem.length) (hobC : obsC < cols)
    (hi : i < dem.length) (hj : j < cols)
    (hoh : 0 ≤ oh) (hth : 0 ≤ th) :
    lineOfSight dem obsR obsC oh th i j = true := by
  unfold lineOfSight
  dsimp only
  rw [List.all_eq_true]
  intro pr hpr
  obtain ⟨h1le, hlt, hmem⟩ := mem_enumFrom_facts _ 1 pr hpr
  have pr2lp : pr.2 ∈ bresenhamLine (obsR : ℤ) (obsC : ℤ) (i : ℤ) (j : ℤ) :=
    List.drop_subset _ _ (List.dropLast_subset _ hmem)
  obtain ⟨hq1, hq2, hq3, hq4⟩ := bresenhamLine_mem_rect _ _ _ _ pr.2 pr2lp
  have hr0 : 0 ≤ pr.2.1 :=
    le_trans (le_min (Int.natCast_nonneg _) (Int.natCast_nonneg _)) hq1
  have hc0 : 0 ≤ pr.2.2 :=
    le_trans (le_min (Int.natCast_nonneg _) (Int.natCast_nonneg _)) hq3
  have hrlt : pr.2.1 < (dem.length : ℤ) :=
    lt_of_le_of_lt hq2 (max_lt (by exact_mod_cast hobR) (by exact_mod_cast hi))
  have hclt : pr.2.2 < (cols : ℤ) :=
    lt_of_le_of_lt hq4 (max_lt (by exact_mod_cast hobC) (by exact_mod_cast hj))
  have hdemMid : demGet dem pr.2.1 pr.2.2 = c :=
    demGet_const dem c cols hrect hconst pr.2.1 pr.2.2 hr0 hc0 (by omega) (by omega)
  have hdemObs : demGet dem (obsR : ℤ) (obsC : ℤ) = c :=
    demGet_const dem c cols hrect hconst _ _ (Int.natCast_nonneg _)
      (Int.natCast_nonneg _) (by omega) (by omega)
  have hdemTgt : demGet dem (i : ℤ) (j : ℤ) = c :=
    demGet_const dem c cols hrect hconst _ _ (Int.natCast_nonneg _)
      (Int.natCast_nonneg _) (by omega) (by omega)
  rw [Bool.not_eq_true', decide_eq_false_iff_not, hdemMid, hdemObs, hdemTgt, not_lt]
  have hLpos : (0 : ℚ) <
      ((bresenhamLine (obsR : ℤ) (obsC : ℤ) (i : ℤ) (j : ℤ)).length : ℚ) := by
    exact_mod_cast bresenhamLine_length_pos (obsR : ℤ) (obsC : ℤ) (i : ℤ) (j : ℤ)
  have hprle : pr.1 ≤ (bresenhamLine (obsR : ℤ) (obsC : ℤ) (i : ℤ) (j : ℤ)).length := by
    rw [List.length_dropLast, List.length_drop] at hlt
    omega
  have hfrac0 : (0 : ℚ) ≤ (pr.1 : ℚ) /
      ((bresenhamLine (obsR : ℤ) (obsC : ℤ) (i : ℤ) (j : ℤ)).length : ℚ) :=
    div_nonneg (Nat.cast_nonneg _) (le_of_lt hLpos)
  have hfrac1 : (pr.1 : ℚ) /
      ((bresenhamLine (obsR : ℤ) (obsC : ℤ) (i : ℤ) (j : ℤ)).length : ℚ) ≤ 1 :=
    (div_le_one hLpos).mpr (by exact_mod_cast hprle)
  nlinarith [mul_nonneg hoh (sub_nonneg.mpr hfrac1), mul_nonneg hth hfrac0]

/-- Claim C7: for every digital elevation model the observer cell of the
viewshed is marked visible, and on a rectangular raster of constant
elevation, with the observer inside the grid and non-negative
observer_height and target_height, the viewshed marks every cell of the
grid visible. -/
theorem viewshed_flat_all_visible (dem : List (List ℚ)) (c : ℚ)
    (cols obsR obsC : ℕ) (oh th : ℚ) :
    (obsR < dem.length → obsC < (dem.headD []).length →
      (((viewshedCalculate dem obsR obsC oh th).getD obsR []).getD obsC false) = true) ∧
    ((∀ row ∈ dem, row.length = cols) → (∀ row ∈ dem, ∀ v ∈ row, v = c) →
      obsR < dem.length → obsC < cols → 0 ≤ oh → 0 ≤ th →
      allTrue (viewshedCalculate dem obsR obsC oh th)) := by
  constructor
  · intro hR hC
    unfold viewshedCalculate
    dsimp only
    rw [getD_eq_getElem _ obsR [] (by rw [List.length_map, List.length_range]; exact hR)]
    rw [List.getElem_map, List.getElem_range]
    rw [getD_eq_getElem _ obsC false (by rw [List.length_map, List.length_range]; exact hC)]
    rw [List.getElem_map, List.getElem_range]
    rw [if_pos ⟨rfl, rfl⟩]
  · intro hrect hconst hR hC hoh hth
    unfold allTrue viewshedCalculate
    dsimp only
    intro row hrow b hb
    obtain ⟨iidx, hi_mem, rfl⟩ := List.mem_map.mp hrow
    obtain ⟨jidx, hj_mem, rfl⟩ := List.mem_map.mp hb
    have hi : iidx < dem.length := List.mem_range.mp hi_mem
    have hdne : dem ≠ [] := by
      intro h; rw [h] at hR; simp at hR
    have hcols : (dem.headD []).length = cols := hrect _ (headD_mem dem [] hdne)
    have hj : jidx < cols := by
      have := List.mem_range.mp hj_mem; omega
    by_cases hobs : iidx = obsR ∧ jidx = obsC
    · rw [if_pos hobs]
    · rw [if_neg hobs]
      exact lineOfSight_const dem c cols hrect hconst obsR obsC iidx jidx oh th
        hR hC hi hj hoh hth

/-- Witness for C7: on the constant 2x2 raster of elevation 2 with the
observer at (0,0), observer_height 1 and target_height 0, the observer
cell is visible and every cell of the viewshed is visible. -/
theorem viewshed_flat_all_visible_witness :
    (((viewshedCalculate [[(2 : ℚ), 2], [2, 2]] 0 0 1 0).getD 0 []).getD 0 false) = true ∧
    allTrue (viewshedCalculate [[(2 : ℚ), 2], [2, 2]] 0 0 1 0) :=
  ⟨(viewshed_flat_all_visible [[(2 : ℚ), 2], [2, 2]] 2 2 0 0 1 0).1
      (by decide) (by decide),
   (viewshed_flat_all_visible [[(2 : ℚ), 2], [2, 2]] 2 2 0 0 1 0).2
      (by decide) (by decide) (by decide) (by decide) (by decide) (by decide)⟩

end ProjetLidar
